import Mathlib

/-!
Verification of the CRDT engine and revision store of the `crdb` crate
(`src/crates/crdb/src/crdb.rs`).

Modelling conventions:
* Rust `u32`/`usize`/`u16` counters become `Nat` (no claim depends on
  wrap-around behaviour).
* The `btree`, `dense_id`, `rope`, `operations` and `messages` modules of the
  crate are not part of the provided sources; where their behaviour matters it
  is modelled from the specification (each such definition carries a doc
  comment starting with `Modelled from the spec:`).  `btree::Map` becomes a
  sorted association list, `btree::Sequence` a sorted list, `Rope` a
  `List Char`, `DenseId` a lexicographically ordered `List Nat`.
* Fallible or panicking code paths return `Option` (`none` = panic/`Err`).
* Text offsets are modelled as character offsets.
-/

namespace Crdb

/-- Three-way comparison on `Nat`, the order underlying the Rust derived
`Ord` instances for `ReplicaId(u32)` and `OperationCount(usize)`. -/
def natCmp (a b : Nat) : Ordering :=
  if a < b then .lt else if b < a then .gt else .eq

/-- `OperationId` from crdb.rs (lines 108-114): a replica id paired with a
Lamport operation count.  Field order matches the Rust struct: `replica_id`
first, then `operation_count`. -/
structure OperationId where
  replica_id : Nat
  operation_count : Nat
deriving DecidableEq

instance : Inhabited OperationId := ⟨⟨0, 0⟩⟩

/-- The Rust `#[derive(Ord)]` on `OperationId` compares the fields in
declaration order: `replica_id` first, `operation_count` as tiebreaker. -/
def OperationId.cmp (a b : OperationId) : Ordering :=
  (natCmp a.replica_id b.replica_id).then (natCmp a.operation_count b.operation_count)

/-- `OperationId::tick` (crdb.rs lines 124-127): increments the operation
count and returns the updated id (which is both the new counter state and the
freshly allocated id). -/
def OperationId.tick (self : OperationId) : OperationId :=
  { self with operation_count := self.operation_count + 1 }

/-- `OperationId::observe` (crdb.rs lines 129-131): advances the count to
`max(self.count, other.count) + 1`. -/
def OperationId.observe (self other : OperationId) : OperationId :=
  { self with operation_count := max self.operation_count other.operation_count + 1 }

/-- `OperationId::is_causally_after` (crdb.rs lines 133-137): count first,
replica id as tiebreaker. -/
def OperationId.is_causally_after (self id : OperationId) : Bool :=
  decide (id.operation_count < self.operation_count) ||
    (decide (self.operation_count = id.operation_count) &&
      decide (id.replica_id < self.replica_id))

/-- `RevisionId` (crdb.rs line 72): a sorted vector of `OperationId`s
describing a frontier of heads. -/
abbrev RevisionId := List OperationId

/-- The order on which `RevisionId.observe` sorts: the Rust derived
`Ord` on `OperationId` (replica id first). -/
def opIdLe (a b : OperationId) : Prop := OperationId.cmp a b ≠ .gt

instance : DecidableRel opIdLe := fun a b => by
  unfold opIdLe; infer_instance

/-- Sorting of the id vector performed by `RevisionId::observe`
(`self.0.sort()` sorts by the derived `Ord`). -/
def sortOps (l : List OperationId) : List OperationId :=
  List.insertionSort opIdLe l

/-- `RevisionId::observe` (crdb.rs lines 85-91): if every id of `parent` is
contained in `self`, retain only the ids not in `parent`; then always push
`operation_id` and sort. -/
def RevisionId.observe (self : RevisionId) (operation_id : OperationId)
    (parent : RevisionId) : RevisionId :=
  let retained : List OperationId :=
    if parent.all (fun op_id => self.contains op_id) then
      self.filter (fun op_id => !parent.contains op_id)
    else
      self
  sortOps (retained ++ [operation_id])

/-- `RevisionId::from(OperationId)` (crdb.rs lines 74-78). -/
def RevisionId.ofOperationId (id : OperationId) : RevisionId := [id]

/-- `Bias` from the btree module.  Modelled from the spec: a two-valued
left/right bias used by rope clipping and B-tree seeks (§4.3). -/
inductive Bias where
  | left
  | right
deriving DecidableEq

/-- `DenseId`.  Modelled from the spec (§4.1): a byte-string ordered
lexicographically; the `dense_id` module itself is not among the provided
sources.  Bytes are modelled as `Nat`s. -/
abbrev DenseId := List Nat

/-- Lexicographic comparison of dense ids (§4.1: "totally ordered
lexicographically"). -/
def DenseId.cmp : DenseId → DenseId → Ordering
  | [], [] => .eq
  | [], _ :: _ => .lt
  | _ :: _, [] => .gt
  | a :: as_, b :: bs => (natCmp a b).then (DenseId.cmp as_ bs)

/-- Modelled from the spec (§4.1): the minimal sentinel dense id. -/
def DenseId.min : DenseId := [0]

/-- Modelled from the spec (§4.1): the maximal sentinel dense id.  The exact
byte value is unspecified; any value strictly above every id produced by
`DenseId.between` works. -/
def DenseId.max : DenseId := [1000000000]

/-- Modelled from the spec (§4.1): `between(a, b)` returns an id strictly
between `a` and `b` when `a < b`.  The digit-choice strategy is not fixed by
the spec; this model descends along the common prefix and then either picks an
intermediate byte or extends `a`. -/
def DenseId.between : DenseId → DenseId → DenseId
  | [], [] => [1]
  | [], b :: bs => if 1 ≤ b then [0] else 0 :: DenseId.between [] bs
  | a :: as_, [] => a :: as_ ++ [1]
  | a :: as_, b :: bs =>
    match natCmp a b with
    | .eq => a :: DenseId.between as_ bs
    | .lt => if a + 1 < b then [a + 1] else a :: (as_ ++ [1])
    | .gt => a :: as_ ++ [1]

/-- `Tombstone` (crdb.rs lines 1090-1094). -/
structure Tombstone where
  id : OperationId
  undo_count : Nat
deriving DecidableEq

/-- `DocumentFragment` (crdb.rs lines 951-959).  `insertion_subrange` is the
Rust `Range<usize>` with fields `start`/`end` (the latter renamed `stop`). -/
structure DocumentFragment where
  document_id : OperationId
  location : DenseId
  insertion_id : OperationId
  subrange_start : Nat
  subrange_stop : Nat
  tombstones : List Tombstone
  undo_count : Nat
deriving DecidableEq

/-- `DocumentFragment::is_sentinel` (crdb.rs lines 962-964). -/
def DocumentFragment.is_sentinel (f : DocumentFragment) : Bool :=
  f.insertion_id = f.document_id

/-- `DocumentFragment::len` (crdb.rs lines 966-968). -/
def DocumentFragment.len (f : DocumentFragment) : Nat :=
  f.subrange_stop - f.subrange_start

/-- `DocumentFragment::visible` (crdb.rs lines 970-976): even undo count and
every tombstone with odd undo count. -/
def DocumentFragment.visible (f : DocumentFragment) : Bool :=
  f.undo_count % 2 == 0 &&
    f.tombstones.all (fun tombstone => tombstone.undo_count % 2 == 1)

/-- `InsertionFragment` (crdb.rs lines 1096-1101). -/
structure InsertionFragment where
  insertion_id : OperationId
  offset_in_insertion : Nat
  fragment_location : DenseId
deriving DecidableEq

/-- `InsertionFragment::new` (crdb.rs lines 1104-1110). -/
def InsertionFragment.new (fragment : DocumentFragment) : InsertionFragment :=
  { insertion_id := fragment.insertion_id
    offset_in_insertion := fragment.subrange_start
    fragment_location := fragment.location }

/-- `Anchor` (crdb.rs lines 1472-1477). -/
structure Anchor where
  insertion_id : OperationId
  offset_in_insertion : Nat
  bias : Bias
deriving DecidableEq

/-- `AnchorRange` (crdb.rs lines 1479-1490). -/
structure AnchorRange where
  document_id : OperationId
  start_insertion_id : OperationId
  start_offset_in_insertion : Nat
  start_bias : Bias
  end_insertion_id : OperationId
  end_offset_in_insertion : Nat
  end_bias : Bias
deriving DecidableEq

/-- The `CreateBranch` operation.  Modelled from the spec (§3, "Operations"):
the `operations` module is not among the provided sources; the fields are the
ones crdb.rs constructs and destructures (lines 1679-1683, 1733-1741). -/
structure CreateBranchOp where
  id : OperationId
  name : String
  parent : RevisionId
deriving DecidableEq

/-- The `CreateDocument` operation.  Modelled from the spec (§3): fields as
constructed in crdb.rs lines 861-865. -/
structure CreateDocumentOp where
  id : OperationId
  branch_id : OperationId
  parent : RevisionId
deriving DecidableEq

/-- The `Edit` operation.  Modelled from the spec (§3): fields as constructed
in crdb.rs lines 1181-1187; edited text is modelled as `List Char`. -/
structure EditOp where
  id : OperationId
  document_id : OperationId
  branch_id : OperationId
  parent : RevisionId
  edits : List (AnchorRange × List Char)
deriving DecidableEq

/-- The `Operation` enum.  Modelled from the spec (§3): three variants. -/
inductive Operation where
  | createBranch (op : CreateBranchOp)
  | createDocument (op : CreateDocumentOp)
  | edit (op : EditOp)
deriving DecidableEq

/-- `Operation::id()`.  Modelled from the spec (§3): "`id()` returns its
OperationId". -/
def Operation.opId : Operation → OperationId
  | .createBranch op => op.id
  | .createDocument op => op.id
  | .edit op => op.id

/-- `Operation::parent()`.  Modelled from the spec (§3): "`parent()` returns
the revision id this operation was authored against". -/
def Operation.parent : Operation → RevisionId
  | .createBranch op => op.parent
  | .createDocument op => op.parent
  | .edit op => op.parent

/-! ### Sorted association lists: the model of `btree::Map`

Modelled from the spec (§4.3): the `btree` module is not among the provided
sources; a `btree::Map<K, V>` is an ordered map.  It is modelled as an
association list kept sorted by a three-way comparison on the keys. -/

section AssocList

variable {α β : Type} (cmp : α → α → Ordering)

/-- `btree::Map::get`: find the value stored at a key of a sorted association
list (early exit once the keys pass the target). -/
def alGet (k : α) : List (α × β) → Option β
  | [] => none
  | (k', v) :: rest =>
    match cmp k k' with
    | .lt => none
    | .eq => some v
    | .gt => alGet k rest

/-- `btree::Map::insert`: insert or replace the entry for a key, keeping the
list sorted. -/
def alInsert (k : α) (v : β) : List (α × β) → List (α × β)
  | [] => [(k, v)]
  | (k', v') :: rest =>
    match cmp k k' with
    | .lt => (k, v) :: (k', v') :: rest
    | .eq => (k, v) :: rest
    | .gt => (k', v') :: alInsert k v rest

/-- `btree::Map::contains_key`. -/
def alContains (k : α) (l : List (α × β)) : Bool :=
  (alGet cmp k l).isSome

/-- `btree::Map::update`: apply `f` to the entry stored at `k`, if any. -/
def alUpdate (k : α) (f : β → β) : List (α × β) → List (α × β)
  | [] => []
  | (k', v') :: rest =>
    match cmp k k' with
    | .lt => (k', v') :: rest
    | .eq => (k', f v') :: rest
    | .gt => (k', v') :: alUpdate k f rest

/-- Strict sortedness of an association list by its keys. -/
def alSorted (l : List (α × β)) : Prop :=
  List.Pairwise (fun a b => cmp a.1 b.1 = .lt) l

end AssocList

/-- Lawfulness of a three-way comparison, packaged as explicit hypotheses for
the generic association-list lemmas. -/
structure CmpLaws {α : Type} (cmp : α → α → Ordering) : Prop where
  eq_iff : ∀ a b, cmp a b = .eq ↔ a = b
  lt_asymm : ∀ a b, cmp a b = .lt → cmp b a = .gt
  gt_asymm : ∀ a b, cmp a b = .gt → cmp b a = .lt
  lt_trans : ∀ a b c, cmp a b = .lt → cmp b c = .lt → cmp a c = .lt

/-- Comparison of revision ids: the Rust derived `Ord` on
`RevisionId(SmallVec<OperationId>)` is the lexicographic list order over the
derived `OperationId` order. -/
def revIdCmp : RevisionId → RevisionId → Ordering
  | [], [] => .eq
  | [], _ :: _ => .lt
  | _ :: _, [] => .gt
  | a :: as_, b :: bs => (OperationId.cmp a b).then (revIdCmp as_ bs)

/-- `DocumentMetadata` (crdb.rs lines 945-949); the path is modelled as a
string. -/
structure DocumentMetadata where
  path : Option String
  last_change : OperationId
deriving DecidableEq

/-- `Revision` (crdb.rs lines 1983-1990).  The two ropes are modelled as
character lists, the B-tree collections as sorted lists. -/
structure Revision where
  document_metadata : List (OperationId × DocumentMetadata)
  document_fragments : List DocumentFragment
  insertion_fragments : List InsertionFragment
  visible_text : List Char
  hidden_text : List Char
deriving DecidableEq

/-- `Revision::default()`. -/
def Revision.empty : Revision :=
  { document_metadata := []
    document_fragments := []
    insertion_fragments := []
    visible_text := []
    hidden_text := [] }

/-- `LocalEditDimension` (crdb.rs lines 1433-1438): the cursor dimension used
by the edit algorithm. -/
structure LocalEditDimension where
  visible_len : Nat
  hidden_len : Nat
  max_document_id : OperationId
deriving DecidableEq

/-- The zero dimension (`Default` in Rust). -/
def LocalEditDimension.zero : LocalEditDimension :=
  { visible_len := 0, hidden_len := 0, max_document_id := ⟨0, 0⟩ }

/-- Accumulating one fragment's summary into a `LocalEditDimension`
(crdb.rs lines 1016-1025 together with 1440-1447): visible/hidden lengths are
added, and `max_document_id` is replaced by the fragment's document id. -/
def LocalEditDimension.add (d : LocalEditDimension) (f : DocumentFragment) :
    LocalEditDimension :=
  { visible_len := d.visible_len + (if f.visible then f.len else 0)
    hidden_len := d.hidden_len + (if f.visible then 0 else f.len)
    max_document_id := f.document_id }

/-- `DocumentFragmentSummary` (crdb.rs lines 1028-1034). -/
structure DocumentFragmentSummary where
  visible_len : Nat
  hidden_len : Nat
  max_document_id : OperationId
  max_location : DenseId
deriving DecidableEq

/-- Summary of a fragment sequence: the fold of the per-item summaries
(crdb.rs lines 1015-1050); for the empty sequence all components are their
defaults (`DenseId::default()` is the empty byte string). -/
def fragListSummary (l : List DocumentFragment) : DocumentFragmentSummary :=
  l.foldl
    (fun s f =>
      { visible_len := s.visible_len + (if f.visible then f.len else 0)
        hidden_len := s.hidden_len + (if f.visible then 0 else f.len)
        max_document_id := f.document_id
        max_location := f.location })
    { visible_len := 0, hidden_len := 0, max_document_id := ⟨0, 0⟩, max_location := [] }

/-- Seek targets used by the local edit algorithm: a bare document id
(crdb.rs lines 1449-1453) or a `(document id, visible offset)` pair
(crdb.rs lines 1461-1470). -/
inductive EditTarget where
  | doc (id : OperationId)
  | docVis (id : OperationId) (k : Nat)

/-- `SeekTarget::seek_cmp` against a cumulative `LocalEditDimension`: a bare
id compares against `max_document_id`; a pair compares lexicographically
against `(max_document_id, visible_len)`. -/
def EditTarget.cmp : EditTarget → LocalEditDimension → Ordering
  | .doc id, d => OperationId.cmp id d.max_document_id
  | .docVis id k, d => (OperationId.cmp id d.max_document_id).then (natCmp k d.visible_len)

/-- A cursor over a fragment sequence.  Modelled from the spec (§4.3): the
`btree` module is not among the provided sources; the cursor tracks the
cumulative dimension of the consumed items (`start()`), the previously
consumed item (`prev_item()`) and the remaining items. -/
structure EditCursor where
  dim : LocalEditDimension
  pre : Option DocumentFragment
  rest : List DocumentFragment

/-- `Sequence::cursor()`: a cursor at the start of the sequence. -/
def mkCursor (l : List DocumentFragment) : EditCursor :=
  { dim := LocalEditDimension.zero, pre := none, rest := l }

/-- `Cursor::item()`. -/
def EditCursor.item (c : EditCursor) : Option DocumentFragment :=
  c.rest.head?

/-- `Cursor::end()`: the cumulative dimension including the current item. -/
def EditCursor.stop (c : EditCursor) : LocalEditDimension :=
  match c.rest with
  | [] => c.dim
  | f :: _ => c.dim.add f

/-- `Cursor::next()`. -/
def EditCursor.next (c : EditCursor) : EditCursor :=
  match c.rest with
  | [] => c
  | f :: r => { dim := c.dim.add f, pre := some f, rest := r }

/-- The scan underlying `Cursor::slice(target, bias)`.  Modelled from the
spec (§4.3): consume items while the cumulative dimension stays strictly
below the target, or equal to it under `Bias::Right`. -/
def sliceGo (target : EditTarget) (bias : Bias) :
    LocalEditDimension → Option DocumentFragment → List DocumentFragment →
    List DocumentFragment × LocalEditDimension × Option DocumentFragment × List DocumentFragment
  | dim, pre, [] => ([], dim, pre, [])
  | dim, pre, f :: r =>
    let d' := dim.add f
    let o := target.cmp d'
    if o = .gt ∨ (o = .eq ∧ bias = .right) then
      let (cs, d2, p2, r2) := sliceGo target bias d' (some f) r
      (f :: cs, d2, p2, r2)
    else ([], dim, pre, f :: r)

/-- `Cursor::slice(target, bias)`: returns the consumed items and the
advanced cursor. -/
def EditCursor.slice (c : EditCursor) (target : EditTarget) (bias : Bias) :
    List DocumentFragment × EditCursor :=
  let (cs, d, p, r) := sliceGo target bias c.dim c.pre c.rest
  (cs, { dim := d, pre := p, rest := r })

/-- The state of `RopeBuilder` (crdb.rs lines 1536-1541): cursors into the
old visible/hidden text plus the new texts being built.  Ropes are modelled
as character lists and the cursors as offsets. -/
structure RopeBuilderState where
  old_visible : List Char
  ov_offset : Nat
  old_hidden : List Char
  oh_offset : Nat
  new_visible : List Char
  new_hidden : List Char

/-- `RopeBuilder::new` (crdb.rs lines 1543-1551). -/
def mkRopeBuilder (visible hidden : List Char) : RopeBuilderState :=
  { old_visible := visible, ov_offset := 0, old_hidden := hidden, oh_offset := 0
    new_visible := [], new_hidden := [] }

/-- `RopeBuilder::push` (crdb.rs lines 1562-1575): slice `len` characters off
the old visible (or hidden) cursor and append them to the new visible (or
hidden) rope. -/
def RopeBuilderState.push (rb : RopeBuilderState) (len : Nat)
    (was_visible is_visible : Bool) : RopeBuilderState :=
  let text :=
    if was_visible then (rb.old_visible.drop rb.ov_offset).take len
    else (rb.old_hidden.drop rb.oh_offset).take len
  let rb1 :=
    if was_visible then { rb with ov_offset := rb.ov_offset + len }
    else { rb with oh_offset := rb.oh_offset + len }
  if is_visible then { rb1 with new_visible := rb1.new_visible ++ text }
  else { rb1 with new_hidden := rb1.new_hidden ++ text }

/-- `RopeBuilder::append` (crdb.rs lines 1553-1556). -/
def RopeBuilderState.appendLens (rb : RopeBuilderState) (visible_len hidden_len : Nat) :
    RopeBuilderState :=
  (rb.push visible_len true true).push hidden_len false false

/-- `RopeBuilder::push_fragment` (crdb.rs lines 1558-1560). -/
def RopeBuilderState.pushFragment (rb : RopeBuilderState) (fragment : DocumentFragment)
    (was_visible : Bool) : RopeBuilderState :=
  rb.push fragment.len was_visible fragment.visible

/-- `RopeBuilder::push_str` (crdb.rs lines 1577-1579). -/
def RopeBuilderState.pushStr (rb : RopeBuilderState) (text : List Char) : RopeBuilderState :=
  { rb with new_visible := rb.new_visible ++ text }

/-- `RopeBuilder::finish` (crdb.rs lines 1581-1585). -/
def RopeBuilderState.finish (rb : RopeBuilderState) : List Char × List Char :=
  (rb.new_visible ++ rb.old_visible.drop rb.ov_offset,
   rb.new_hidden ++ rb.old_hidden.drop rb.oh_offset)

/-- Key comparison for `InsertionFragment` (crdb.rs lines 1124-1165):
`(insertion_id, offset_in_insertion)` lexicographically. -/
def insKeyCmp (a b : InsertionFragment) : Ordering :=
  (OperationId.cmp a.insertion_id b.insertion_id).then
    (natCmp a.offset_in_insertion b.offset_in_insertion)

/-- Sorted insert-or-replace of an insertion fragment by its key; the model
of one `btree::Edit::Insert` applied by `Sequence::edit`. -/
def insertInsertionFragment (i : InsertionFragment) :
    List InsertionFragment → List InsertionFragment
  | [] => [i]
  | e :: rest =>
    match insKeyCmp i e with
    | .lt => i :: e :: rest
    | .eq => i :: rest
    | .gt => e :: insertInsertionFragment i rest

/-- `Sequence::edit(new_insertions)` (crdb.rs line 1401).  Modelled from the
spec (§4.3): a batch of keyed inserts, applied in order. -/
def insFragEdit (l : List InsertionFragment) (edits : List InsertionFragment) :
    List InsertionFragment :=
  edits.foldl (fun acc i => insertInsertionFragment i acc) l

/-- The mutable state threaded through the edit loop of `Document::edit`
(crdb.rs lines 1188-1219): the old-fragment cursor, the rebuilt fragment
sequence, the accumulated insertion-fragment edits, the per-operation
insertion offset, the `fragment_start` bookkeeping, the rope builder, and the
anchor-range edits collected into the `Edit` operation. -/
structure EditLoopState where
  old : EditCursor
  newFrags : List DocumentFragment
  newIns : List InsertionFragment
  insertion_offset : Nat
  fragment_start : Nat
  rb : RopeBuilderState
  outEdits : List (AnchorRange × List Char)

/-- The inner deletion loop of `Document::edit` (crdb.rs lines 1286-1318):
advance through every fragment intersecting the range, tombstoning the
intersecting portions.  The loop is fuelled; exhaustion models divergence and
`unwrap` of a missing item models a panic, both returning `none`. -/
def editInnerLoop (editId : OperationId) (rangeStop : Nat) :
    Nat → EditLoopState → Option EditLoopState
  | 0, _ => none
  | fuel + 1, st =>
    if st.fragment_start < rangeStop then
      match st.old.rest.head? with
      | none => none
      | some fragment =>
        let fragment_end := st.old.stop.visible_len
        let intersection_end := min rangeStop fragment_end
        let intersection :=
          if fragment.visible then
            let ns := fragment.subrange_start + (st.fragment_start - st.old.dim.visible_len)
            { fragment with
              subrange_start := ns
              subrange_stop := ns + (intersection_end - st.fragment_start)
              location := DenseId.between (fragListSummary st.newFrags).max_location
                fragment.location
              tombstones := fragment.tombstones ++ [⟨editId, 0⟩] }
          else fragment
        let st1 :=
          if 0 < intersection.len then
            { st with
              newIns := st.newIns ++ [InsertionFragment.new intersection]
              rb := st.rb.pushFragment intersection fragment.visible
              newFrags := st.newFrags ++ [intersection]
              fragment_start := intersection_end }
          else st
        let st2 := if fragment_end ≤ rangeStop then { st1 with old := st1.old.next } else st1
        editInnerLoop editId rangeStop fuel st2
    else some st

/-- The jump-ahead phase of one iteration of the outer edit loop of
`Document::edit` (crdb.rs lines 1221-1245): if the current fragment ends
before the range, consume the rest of a partially consumed fragment and
advance to the first fragment extending past the start of the range, reusing
any intervening fragments. -/
def editJump (docId : OperationId) (st : EditLoopState) (rangeStart : Nat) :
    Option EditLoopState :=
  let fragment_end := st.old.stop.visible_len
  if fragment_end < rangeStart then
    let st1? : Option EditLoopState :=
      if st.fragment_start > st.old.dim.visible_len then
        if fragment_end > st.fragment_start then
          match st.old.rest.head? with
          | none => none
          | some f =>
            let suf := { f with
              subrange_start := f.subrange_start + (st.fragment_start - st.old.dim.visible_len) }
            some { st with
              newIns := st.newIns ++ [InsertionFragment.new suf]
              rb := st.rb.pushFragment suf suf.visible
              newFrags := st.newFrags ++ [suf]
              old := st.old.next }
        else some { st with old := st.old.next }
      else some st
    match st1? with
    | none => none
    | some st1 =>
      let (sl, c') := st1.old.slice (.docVis docId rangeStart) .right
      let s := fragListSummary sl
      some { st1 with
        old := c'
        rb := st1.rb.appendLens s.visible_len s.hidden_len
        newFrags := st1.newFrags ++ sl
        fragment_start := c'.dim.visible_len }
  else some st

/-- The prefix-preserving phase of the outer edit loop (crdb.rs lines
1271-1284): split off and keep the portion of the current fragment that
precedes the range. -/
def editPrefixPhase (st : EditLoopState) (rangeStart : Nat) : Option EditLoopState :=
  if st.fragment_start < rangeStart then
    match st.old.rest.head? with
    | none => none
    | some f =>
      let prefix_len := rangeStart - st.fragment_start
      let ns := f.subrange_start + (st.fragment_start - st.old.dim.visible_len)
      let pref := { f with
        subrange_start := ns
        subrange_stop := ns + prefix_len
        location := DenseId.between (fragListSummary st.newFrags).max_location f.location }
      some { st with
        newIns := st.newIns ++ [InsertionFragment.new pref]
        rb := st.rb.pushFragment pref pref.visible
        newFrags := st.newFrags ++ [pref]
        fragment_start := rangeStart }
  else some st

/-- One iteration of the outer edit loop of `Document::edit`
(crdb.rs lines 1220-1374), processing a single `(range, new_text)` pair:
jump ahead to the range, compute the start anchor, split off a visible
prefix, tombstone the intersecting fragments, insert the new text, compute
the end anchor, and record the anchor range on the operation. -/
def editStep (editId docId : OperationId) (st : EditLoopState)
    (range : Nat × Nat) (new_text : List Char) : Option EditLoopState :=
  -- crdb.rs lines 1223-1245: jump ahead to the first fragment extending past
  -- the start of this range, reusing any intervening fragments.
  match editJump docId st range.1 with
  | none => none
  | some st =>
    -- crdb.rs lines 1247-1269: the start anchor.
    let start_fragment := st.old.rest.head?.bind
      (fun item => if item.document_id = docId then some item else none)
    let edit_start? : Option Anchor :=
      if range.1 = st.old.dim.visible_len then
        match st.old.pre with
        | none => none
        | some sf => some (Anchor.mk sf.insertion_id sf.subrange_stop .right)
      else
        match start_fragment with
        | none => none
        | some sf =>
          some (Anchor.mk sf.insertion_id
            (sf.subrange_start + (range.1 - st.old.dim.visible_len)) .right)
    match edit_start? with
    | none => none
    | some edit_start =>
      -- crdb.rs lines 1271-1284: preserve the portion of the current fragment
      -- preceding the range.
      match editPrefixPhase st range.1 with
      | none => none
      | some st =>
        -- crdb.rs lines 1286-1318: the deletion loop.
        match editInnerLoop editId range.2 (2 * st.old.rest.length + 2) st with
        | none => none
        | some st =>
          -- crdb.rs lines 1320-1326.
          let end_fragment := st.old.rest.head?.bind
            (fun item => if item.document_id = docId then some item else none)
          -- crdb.rs lines 1328-1345: insert the new text.
          let st :=
            if new_text ≠ [] then
              let fragment : DocumentFragment :=
                { document_id := docId
                  location := DenseId.between (fragListSummary st.newFrags).max_location
                    (match end_fragment with
                     | some old_fragment => old_fragment.location
                     | none => DenseId.max)
                  insertion_id := editId
                  subrange_start := st.insertion_offset
                  subrange_stop := st.insertion_offset + new_text.length
                  tombstones := []
                  undo_count := 0 }
              { st with
                newIns := st.newIns ++ [InsertionFragment.new fragment]
                rb := st.rb.pushStr new_text
                newFrags := st.newFrags ++ [fragment]
                insertion_offset := st.insertion_offset + new_text.length }
            else st
          -- crdb.rs lines 1347-1362: the end anchor.
          let edit_end? : Option Anchor :=
            if range.2 = st.old.dim.visible_len then
              match st.old.pre with
              | none => none
              | some ef => some (Anchor.mk ef.insertion_id ef.subrange_stop .left)
            else
              match end_fragment with
              | none => none
              | some ef =>
                some (Anchor.mk ef.insertion_id
                  (ef.subrange_start + (range.2 - st.old.dim.visible_len)) .left)
          match edit_end? with
          | none => none
          | some edit_end =>
            -- crdb.rs lines 1363-1374.
            some { st with
              outEdits := st.outEdits ++
                [(AnchorRange.mk docId edit_start.insertion_id edit_start.offset_in_insertion
                    edit_start.bias edit_end.insertion_id edit_end.offset_in_insertion
                    edit_end.bias,
                  new_text)] }

/-- The body of the closure passed to `Branch::update` by `Document::edit`
(crdb.rs lines 1179-1406), for a given document id, freshly ticked operation
id, and edit list with document-relative ranges.  Returns the anchor-range
edits recorded on the `Edit` operation and the rebuilt revision; `none`
models a panic. -/
def editCore (docId editId : OperationId) (rev : Revision)
    (edits0 : List ((Nat × Nat) × List Char)) :
    Option (List (AnchorRange × List Char) × Revision) := do
  let c0 := mkCursor rev.document_fragments
  -- crdb.rs line 1192: new_fragments = old_fragments.slice(&self.id, Left).
  let (initFrags, c1) := c0.slice (.doc docId) .left
  let document_visible_start := c1.dim.visible_len
  let edits := edits0.map
    (fun rt => ((document_visible_start + rt.1.1, document_visible_start + rt.1.2), rt.2))
  -- crdb.rs line 1210: `edits.peek().unwrap()` panics on an empty edit list.
  match edits.head? with
  | none => none
  | some firstEdit =>
    let (sl, c2) := c1.slice (.docVis docId firstEdit.1.1) .right
    let newFrags := initFrags ++ sl
    let rb0 := mkRopeBuilder rev.visible_text rev.hidden_text
    let s := fragListSummary newFrags
    let rb1 := rb0.appendLens s.visible_len s.hidden_len
    let st0 : EditLoopState :=
      { old := c2, newFrags := newFrags, newIns := [], insertion_offset := 0
        fragment_start := c2.dim.visible_len, rb := rb1, outEdits := [] }
    let st ← edits.foldl (fun acc rt => acc.bind (fun st => editStep editId docId st rt.1 rt.2))
      (some st0)
    -- crdb.rs lines 1377-1392: consume the rest of a partially consumed
    -- fragment.
    let st' ←
      if st.fragment_start > st.old.dim.visible_len then
        let fragment_end := st.old.stop.visible_len
        if fragment_end > st.fragment_start then
          match st.old.rest.head? with
          | none => none
          | some f =>
            let suffix_len := fragment_end - st.fragment_start
            let ns := f.subrange_start + (st.fragment_start - st.old.dim.visible_len)
            let suf := { f with subrange_start := ns, subrange_stop := ns + suffix_len }
            some { st with
              newIns := st.newIns ++ [InsertionFragment.new suf]
              rb := st.rb.pushFragment suf suf.visible
              newFrags := st.newFrags ++ [suf]
              old := st.old.next }
        else some { st with old := st.old.next }
      else some st
    -- crdb.rs lines 1394-1403.
    let sufList := st'.old.rest
    let sufSummary := fragListSummary sufList
    let rb2 := st'.rb.appendLens sufSummary.visible_len sufSummary.hidden_len
    let (vis, hid) := rb2.finish
    some (st'.outEdits,
      { rev with
        document_fragments := st'.newFrags ++ sufList
        insertion_fragments := insFragEdit rev.insertion_fragments st'.newIns
        visible_text := vis
        hidden_text := hid })

/-- `Revision::document_visible_start` (crdb.rs lines 2052-2056): the
cumulative visible length before the first fragment of the document. -/
def Revision.document_visible_start (rev : Revision) (document_id : OperationId) : Nat :=
  ((mkCursor rev.document_fragments).slice (.doc document_id) .left).2.dim.visible_len

/-- `CreateDocument::apply`.  Modelled from the spec (§4.8, §3): the
`operations` module is not among the provided sources; applying
`CreateDocument` inserts an empty `DocumentMetadata` and a single sentinel
fragment (`insertion_id == document_id`, length 0, minimal location within
the document) into the revision, plus its insertion-fragment index entry. -/
def createDocumentApply (op : CreateDocumentOp) (rev : Revision) : Revision :=
  let sentinel : DocumentFragment :=
    { document_id := op.id, location := DenseId.min, insertion_id := op.id
      subrange_start := 0, subrange_stop := 0, tombstones := [], undo_count := 0 }
  let rec insFrag : List DocumentFragment → List DocumentFragment
    | [] => [sentinel]
    | f :: rest =>
      match (OperationId.cmp sentinel.document_id f.document_id).then
          (DenseId.cmp sentinel.location f.location) with
      | .lt => sentinel :: f :: rest
      | .eq => sentinel :: rest
      | .gt => f :: insFrag rest
  { rev with
    document_metadata :=
      alInsert OperationId.cmp op.id ⟨none, op.id⟩ rev.document_metadata
    document_fragments := insFrag rev.document_fragments
    insertion_fragments :=
      insertInsertionFragment (InsertionFragment.new sentinel) rev.insertion_fragments }

/-- Resolution of one anchor to an absolute visible offset.  Modelled from
the spec (§4.5 replay): seek `insertion_fragments` by
`(insertion_id, offset_in_insertion)` to the entry covering the anchor, then
locate that fragment in `document_fragments` and add the remaining offset
when the fragment is visible.  Bias fine points for interleaved concurrent
insertions are not modelled. -/
def resolveAnchorOffset (rev : Revision) (document_id insertion_id : OperationId)
    (offset_in_insertion : Nat) : Option Nat := do
  let covering := (rev.insertion_fragments.filter
    (fun e => e.insertion_id = insertion_id ∧ e.offset_in_insertion ≤ offset_in_insertion))
  let entry ← covering.getLast?
  let rec go (dim : Nat) : List DocumentFragment → Option Nat
    | [] => none
    | f :: rest =>
      if f.document_id = document_id ∧ f.location = entry.fragment_location then
        some (dim + (if f.visible then offset_in_insertion - f.subrange_start else 0))
      else go (dim + (if f.visible then f.len else 0)) rest
  go 0 rev.document_fragments

/-- `Edit::apply(parent_revision, target_revision)`.  Modelled from the spec
(§4.5 replay): each `AnchorRange` is resolved to visible offsets in the
target via `insertion_fragments`, then the same fragment-walk as the local
edit (`editCore`) splits and tombstones the intersecting fragments and
inserts the new text under the edit's operation id.  The parent revision's
role in bias-directed skipping of concurrent insertions is not modelled. -/
def editApply (op : EditOp) (_parentRev : Revision) (target : Revision) :
    Option Revision := do
  let docStart := target.document_visible_start op.document_id
  let ranges ← op.edits.foldl
    (fun acc art => do
      let rs ← acc
      let s ← resolveAnchorOffset target op.document_id art.1.start_insertion_id
        art.1.start_offset_in_insertion
      let e ← resolveAnchorOffset target op.document_id art.1.end_insertion_id
        art.1.end_offset_in_insertion
      pure (rs ++ [((s - docStart, e - docStart), art.2)]))
    (some [])
  let (_, rev') ← editCore op.document_id op.id target ranges
  pure rev'

/-- `BranchSnapshot` (crdb.rs lines 1977-1981). -/
structure BranchSnapshot where
  name : String
  head : RevisionId
deriving DecidableEq

/-- `DeferredOperation` (crdb.rs lines 1933-1937). -/
structure DeferredOperation where
  parent : OperationId
  operation : Operation
deriving DecidableEq

/-- The key of a deferred operation (crdb.rs lines 1969-1975):
`(parent, operation.id())`, ordered lexicographically by the derived
`OperationId` order. -/
def defKeyCmp (a b : DeferredOperation) : Ordering :=
  (OperationId.cmp a.parent b.parent).then
    (OperationId.cmp a.operation.opId b.operation.opId)

/-- `Sequence::insert_or_replace` on the deferred-operation sequence.
Modelled from the spec (§5 shared-resource policy): a multiset keyed by
`(parent, operation.id())`; an insert with an existing key replaces the
entry. -/
def dInsertOrReplace (d : DeferredOperation) :
    List DeferredOperation → List DeferredOperation
  | [] => [d]
  | e :: rest =>
    match defKeyCmp d e with
    | .lt => d :: e :: rest
    | .eq => d :: rest
    | .gt => e :: dInsertOrReplace d rest

/-- `RepoSnapshot` (crdb.rs lines 1588-1598). -/
structure RepoSnapshot where
  last_operation_id : OperationId
  branches : List (OperationId × BranchSnapshot)
  branch_ids_by_name : List (String × OperationId)
  operations : List (OperationId × Operation)
  revisions : List (RevisionId × Revision)
  max_operation_ids : List (Nat × Nat)
  deferred_operations : List DeferredOperation

/-- `RepoSnapshot::default()` (crdb.rs lines 1610-1625): everything empty,
except that the empty revision id is pre-cached with the empty revision. -/
def RepoSnapshot.base : RepoSnapshot :=
  { last_operation_id := ⟨0, 0⟩
    branches := []
    branch_ids_by_name := []
    operations := []
    revisions := [([], Revision.empty)]
    max_operation_ids := []
    deferred_operations := [] }

/-- The Rust comparison `Option<OperationCount> < Some(count)` used by
`save_operation`: `None` is below every `Some`. -/
def optCountLt : Option Nat → Nat → Bool
  | none, _ => true
  | some a, b => a < b

/-- `RepoSnapshot::save_operation` (crdb.rs lines 1816-1824): bump the
per-replica maximum, observe the id on `last_operation_id`, and insert the
operation into the log. -/
def RepoSnapshot.save_operation (s : RepoSnapshot) (operation : Operation) : RepoSnapshot :=
  let replica_id := operation.opId.replica_id
  let count := operation.opId.operation_count
  let s1 :=
    if optCountLt (alGet natCmp replica_id s.max_operation_ids) count then
      { s with max_operation_ids := alInsert natCmp replica_id count s.max_operation_ids }
    else s
  { s1 with
    last_operation_id := s1.last_operation_id.observe operation.opId
    operations := alInsert OperationId.cmp operation.opId operation s1.operations }

/-- The loop body of `RepoSnapshot::operations_since` (crdb.rs lines
1690-1713): for one `(replica_id, end_op_count)` entry of
`max_operation_ids`, extend the result with the log entries in the key range
`(start_op, end_op]` (or `[new(replica), end_op]` when the replica is unknown
to `version`).  The `BTreeMap::range` call is modelled as a filter of the
sorted log. -/
def opsSinceBody (operations : List (OperationId × Operation))
    (version : List (Nat × Nat)) (new_operations : List Operation)
    (re : Nat × Nat) : List Operation :=
  let end_op : OperationId := ⟨re.1, re.2⟩
  match alGet natCmp re.1 version with
  | some start_op_count =>
    let start_op : OperationId := ⟨re.1, start_op_count⟩
    new_operations ++
      (operations.filter (fun e =>
        OperationId.cmp start_op e.1 == .lt && OperationId.cmp e.1 end_op != .gt)).map
        (fun e => e.2)
  | none =>
    let start_op : OperationId := ⟨re.1, 0⟩
    new_operations ++
      (operations.filter (fun e =>
        OperationId.cmp start_op e.1 != .gt && OperationId.cmp e.1 end_op != .gt)).map
        (fun e => e.2)

/-- `RepoSnapshot::operations_since` (crdb.rs lines 1688-1715). -/
def RepoSnapshot.operations_since (s : RepoSnapshot) (version : List (Nat × Nat)) :
    List Operation :=
  s.max_operation_ids.foldl (opsSinceBody s.operations version) []

/-- `RepoSnapshot::flush_deferred_operations` (crdb.rs lines 1798-1814):
split the deferred sequence around the just-applied id; entries with that
parent move onto the back of the work queue, the rest are retained. -/
def RepoSnapshot.flush_deferred_operations (s : RepoSnapshot) (parent_id : OperationId)
    (operations : List Operation) : RepoSnapshot × List Operation :=
  let left := s.deferred_operations.takeWhile
    (fun d => OperationId.cmp d.parent parent_id == .lt)
  let rest1 := s.deferred_operations.drop left.length
  let mid := rest1.takeWhile (fun d => OperationId.cmp d.parent parent_id != .gt)
  let rest2 := rest1.drop mid.length
  ({ s with deferred_operations := left ++ rest2 },
   operations ++ mid.map (fun d => d.operation))

/-- Comparison of `(operation_count, replica_id)` pairs: the order of the
`BTreeSet` used by `load_revision` (count first, replica as tiebreaker). -/
def cntRepCmp (a b : Nat × Nat) : Ordering :=
  (natCmp a.1 b.1).then (natCmp a.2 b.2)

/-- Sorted, deduplicating insert into the `(count, replica)` set of
`load_revision` (a Rust `BTreeSet`). -/
def insertPair (p : Nat × Nat) : List (Nat × Nat) → List (Nat × Nat)
  | [] => [p]
  | q :: rest =>
    match cntRepCmp p q with
    | .lt => p :: q :: rest
    | .eq => q :: rest
    | .gt => q :: insertPair p rest

/-- Lookup in an unordered association list (the model of the Rust `HashMap`
of `load_revision`, where only keyed access is used). -/
def lookupEq {α β : Type} [DecidableEq α] (l : List (α × β)) (k : α) : Option β :=
  (l.find? (fun e => decide (e.1 = k))).map (fun e => e.2)

/-- Insert-or-replace in an unordered association list. -/
def insertReplaceEq {α β : Type} [DecidableEq α] (l : List (α × β)) (k : α) (v : β) :
    List (α × β) :=
  if (l.find? (fun e => decide (e.1 = k))).isSome then
    l.map (fun e => if e.1 = k then (k, v) else e)
  else l ++ [(k, v)]

/-- The backward search loop of `load_revision` (crdb.rs lines 1838-1899):
a BFS across `parent` pointers tracking, per visited revision id, the subset
of the target's ids from which it is reachable; stops at the first cached
revision reachable from all of them.  Returns the collected
`(count, replica)` set and, if found, the cached common-ancestor revision
with the start bound for the replay.  The loop is fuelled (`none` models
divergence); a missing operation models the source's panic/error. -/
def searchLoop (operationsMap : List (OperationId × Operation))
    (revisionsMap : List (RevisionId × Revision)) (ridLen : Nat) :
    Nat → List (OperationId × RevisionId) → List (RevisionId × List OperationId) →
    List (Nat × Nat) →
    Option (List (Nat × Nat) × Option (Revision × (Nat × Nat)))
  | _, [], _, opsSet => some (opsSet, none)
  | 0, _ :: _, _, _ => none
  | fuel + 1, (start, ancestor) :: queue, ancestors, opsSet =>
    let reach := (lookupEq ancestors ancestor).getD []
    let reach' := if start ∈ reach then reach else reach ++ [start]
    let ancestors' := insertReplaceEq ancestors ancestor reach'
    let found : Option (Revision × (Nat × Nat)) :=
      if reach'.length = ridLen then
        match alGet revIdCmp ancestor revisionsMap with
        | some revision =>
          some (revision,
            match (ancestor.map (fun oid => oid.operation_count)).max? with
            | some m => (m + 1, 0)
            | none => (0, 0))
        | none => none
      else none
    match found with
    | some f => some (opsSet, some f)
    | none =>
      let step := ancestor.foldl
        (fun acc operation_id => acc.bind (fun qo =>
          match alGet OperationId.cmp operation_id operationsMap with
          | none => none
          | some op =>
            some (qo.1 ++ [(start, op.parent)],
              insertPair (operation_id.operation_count, operation_id.replica_id) qo.2)))
        (some (queue, opsSet))
      match step with
      | none => none
      | some qo => searchLoop operationsMap revisionsMap ridLen fuel qo.1 ancestors' qo.2

mutual

/-- `RepoSnapshot::load_revision` (crdb.rs lines 1830-1930): return the
cached revision, or reconstruct it from the closest cached common ancestor by
replaying the collected operations in `(count, replica)` order, caching the
result.  The returned snapshot carries the mutated revision cache; `none`
models an `Err` or panic (fuel exhaustion models divergence). -/
def loadRevision (fuel : Nat) (s : RepoSnapshot) (rid : RevisionId) :
    RepoSnapshot × Option Revision :=
  match fuel with
  | 0 => (s, none)
  | fuel' + 1 =>
    match alGet revIdCmp rid s.revisions with
    | some revision => (s, some revision)
    | none =>
      let init := rid.foldl
        (fun acc operation_id => acc.bind (fun qo =>
          match alGet OperationId.cmp operation_id s.operations with
          | none => none
          | some op =>
            some (qo.1 ++ [(operation_id, op.parent)],
              insertPair (operation_id.operation_count, operation_id.replica_id) qo.2)))
        (some ([], []))
      match init with
      | none => (s, none)
      | some qo =>
        match searchLoop s.operations s.revisions rid.length (fuel' + 1) qo.1 [] qo.2 with
        | none => (s, none)
        | some osf =>
          let common := ((osf.2.map (fun f => f.1)).getD Revision.empty)
          let missing_start := ((osf.2.map (fun f => f.2)).getD (0, 0))
          let missing := osf.1.filter (fun p => cntRepCmp missing_start p != .gt)
          let res := missing.foldl (applyMissingStep fuel') (s, some common)
          match res with
          | (s', none) => (s', none)
          | (s', some c) =>
            ({ s' with revisions := alInsert revIdCmp rid c s'.revisions }, some c)
termination_by (fuel, 0)

/-- One step of the replay loop of `load_revision` (crdb.rs lines 1901-1924):
look up the operation at the `(count, replica)` pair and apply it to the
accumulated revision, loading the parent revision first for an `Edit`
(errors short-circuit but keep the mutated cache). -/
def applyMissingStep (fuel : Nat) (acc : RepoSnapshot × Option Revision)
    (cr : Nat × Nat) : RepoSnapshot × Option Revision :=
  match acc with
  | (s', none) => (s', none)
  | (s', some commonAcc) =>
    match alGet OperationId.cmp ⟨cr.2, cr.1⟩ s'.operations with
    | none => (s', none)
    | some op =>
      match op with
      | .createDocument cd => (s', some (createDocumentApply cd commonAcc))
      | .createBranch _ => (s', some commonAcc)
      | .edit e =>
        match loadRevision fuel s' e.parent with
        | (s'', none) => (s'', none)
        | (s'', some parentRev) =>
          match editApply e parentRev commonAcc with
          | none => (s'', none)
          | some c' => (s'', some c')
termination_by (fuel, 1)

end

/-- One iteration of the `apply_operations` loop (crdb.rs lines 1720-1792),
processing a single popped operation against the snapshot and the remaining
work queue.  Already-logged operations are skipped; causally ready operations
are applied (branch update, `save_operation`, deferred flush, revision
materialisation — with the production behaviour of logging and continuing on
a failed branch lookup or revision load); otherwise the operation is
deferred under each of its parents. -/
def applyStep (fuel : Nat) (s : RepoSnapshot) (operation : Operation)
    (queue : List Operation) : RepoSnapshot × List Operation :=
  if alContains OperationId.cmp operation.opId s.operations then (s, queue)
  else if operation.parent.all (fun parent => alContains OperationId.cmp parent s.operations) then
    let operation_id := operation.opId
    let applied : Option (RepoSnapshot × RevisionId) :=
      match operation with
      | .createBranch op =>
        let br := alInsert OperationId.cmp op.id
          (BranchSnapshot.mk op.name (RevisionId.ofOperationId op.id)) s.branches
        some ({ s with branches := br }, RevisionId.ofOperationId op.id)
      | .createDocument op =>
        match alGet OperationId.cmp op.branch_id s.branches with
        | none => none
        | some branch =>
          let new_head := branch.head.observe operation_id op.parent
          let br := alUpdate OperationId.cmp op.branch_id
            (fun b => { b with head := new_head }) s.branches
          some ({ s with branches := br }, new_head)
      | .edit op =>
        match alGet OperationId.cmp op.branch_id s.branches with
        | none => none
        | some branch =>
          let new_head := branch.head.observe operation_id op.parent
          let br := alUpdate OperationId.cmp op.branch_id
            (fun b => { b with head := new_head }) s.branches
          some ({ s with branches := br }, new_head)
    match applied with
    | none => (s, queue)
    | some sh =>
      let s2 := sh.1.save_operation operation
      let (s3, queue') := s2.flush_deferred_operations operation_id queue
      let (s4, _) := loadRevision fuel s3 sh.2
      (s4, queue')
  else
    let d' := operation.parent.foldl
      (fun d parent => dInsertOrReplace (DeferredOperation.mk parent operation) d)
      s.deferred_operations
    ({ s with deferred_operations := d' }, queue)

/-- The FIFO loop of `RepoSnapshot::apply_operations` (crdb.rs lines
1717-1794), fuelled: `none` when the fuel runs out before the queue
empties. -/
def applyOperationsAux : Nat → RepoSnapshot → List Operation → Option RepoSnapshot
  | _, s, [] => some s
  | 0, _, _ :: _ => none
  | fuel + 1, s, operation :: rest =>
    let sq := applyStep (fuel + 1) s operation rest
    applyOperationsAux fuel sq.1 sq.2

/-- `RepoSnapshot::apply_operations` (crdb.rs lines 1717-1794). -/
def RepoSnapshot.apply_operations (fuel : Nat) (s : RepoSnapshot)
    (operations : List Operation) : Option RepoSnapshot :=
  applyOperationsAux fuel s operations

/-! ### Specification-side predicates and witness data -/

/-- The maximum operation count over all log entries of a given replica
(spec §3, invariant 2); `none` when the replica has no operations. -/
def maxCountOf (ops : List (OperationId × Operation)) (r : Nat) : Option Nat :=
  match ops with
  | [] => none
  | e :: rest =>
    if e.1.replica_id = r then
      match maxCountOf rest r with
      | none => some e.1.operation_count
      | some m => some (max e.1.operation_count m)
    else maxCountOf rest r

/-- Spec §3 invariant 2: `max_operation_ids[r]` equals the maximum count of
any operation by replica `r` in `operations`. -/
def maxOpInvariant (s : RepoSnapshot) : Prop :=
  ∀ r : Nat, alGet natCmp r s.max_operation_ids = maxCountOf s.operations r

/-- Everything but the revision cache is unchanged between two snapshots. -/
def onlyRevisionsDiffer (a b : RepoSnapshot) : Prop :=
  b.last_operation_id = a.last_operation_id ∧ b.branches = a.branches ∧
    b.branch_ids_by_name = a.branch_ids_by_name ∧ b.operations = a.operations ∧
    b.max_operation_ids = a.max_operation_ids ∧
    b.deferred_operations = a.deferred_operations

/-- Strict sortedness of the deferred-operation sequence by its
`(parent, operation id)` key. -/
def dSorted (l : List DeferredOperation) : Prop :=
  List.Pairwise (fun a b => defKeyCmp a b = .lt) l

/-- The version filter of the sync law (spec §4.6): an operation is new for
`version` when its count strictly exceeds `version[replica]`, or its replica
is unknown to `version`. -/
def newForVersion (version : List (Nat × Nat)) (e : OperationId × Operation) : Bool :=
  match alGet natCmp e.1.replica_id version with
  | some v => decide (v < e.1.operation_count)
  | none => true

/-- The operation's target branch can be resolved, so the applied branch of
`apply_operations` runs to the flush (crdb.rs lines 1732-1768; a
`CreateBranch` always applies, the other operations need their branch). -/
def appliesBranch (s : RepoSnapshot) (op : Operation) : Prop :=
  match op with
  | .createBranch _ => True
  | .createDocument o => (alGet OperationId.cmp o.branch_id s.branches).isSome = true
  | .edit o => (alGet OperationId.cmp o.branch_id s.branches).isSome = true

/-- C2 counterexample data: an operation whose parents are one present and
one missing operation id. -/
def c2x_op : Operation := .createBranch ⟨⟨3, 2⟩, "c", [⟨1, 1⟩, ⟨2, 1⟩]⟩

/-- C2 counterexample snapshot: only the operation with id `(1, 1)` is in the
log, so `(2, 1)` is a missing parent of `c2x_op` while `(1, 1)` is present. -/
def c2x_snapshot : RepoSnapshot :=
  RepoSnapshot.base.save_operation (.createBranch ⟨⟨1, 1⟩, "a", []⟩)

/-- C2 flush-witness data: an operation deferred on the parent `(2, 1)`. -/
def c2w_y : Operation := .createBranch ⟨⟨5, 3⟩, "y", [⟨2, 1⟩]⟩

/-- C2 flush-witness snapshot: `c2w_y` sits in the deferred queue keyed by
its missing parent. -/
def c2w_snapshot : RepoSnapshot :=
  { RepoSnapshot.base with deferred_operations := [⟨⟨2, 1⟩, c2w_y⟩] }

/-- C2 flush-witness operation: the arriving parent `(2, 1)`. -/
def c2w_op : Operation := .createBranch ⟨⟨2, 1⟩, "b", []⟩

/-- Concrete witness operation for C4: a `CreateBranch` with empty parent. -/
def c4_op : Operation := .createBranch ⟨⟨1, 1⟩, "main", []⟩

/-- The witness snapshot for C4: the default snapshot with `c4_op` saved. -/
def c4_snapshot : RepoSnapshot := RepoSnapshot.base.save_operation c4_op

/-- The start anchor of an edit range as worded by the spec (§4.5): when
`range.start` equals the cumulative visible offset at the current fragment
boundary, anchor at the end of the previous fragment with `Bias::Right`;
otherwise anchor into the start fragment at its `insertion_subrange.start`
plus the offset of `range.start` into that fragment, with `Bias::Right`. -/
def specStartAnchor (c : EditCursor) (docId : OperationId) (start : Nat) :
    Option Anchor :=
  if start = c.dim.visible_len then
    c.pre.map (fun pf => Anchor.mk pf.insertion_id pf.subrange_stop .right)
  else
    (c.item.bind (fun it => if it.document_id = docId then some it else none)).map
      (fun sf => Anchor.mk sf.insertion_id
        (sf.subrange_start + (start - c.dim.visible_len)) .right)

/-- The end anchor of an edit range as worded by the spec (§4.5): symmetric
to `specStartAnchor`, with `Bias::Left`. -/
def specEndAnchor (c : EditCursor) (docId : OperationId) (stop : Nat) :
    Option Anchor :=
  if stop = c.dim.visible_len then
    c.pre.map (fun pf => Anchor.mk pf.insertion_id pf.subrange_stop .left)
  else
    (c.item.bind (fun it => if it.document_id = docId then some it else none)).map
      (fun ef => Anchor.mk ef.insertion_id
        (ef.subrange_start + (stop - c.dim.visible_len)) .left)

/-- A one-fragment document covering the visible text "abc". -/
def c7_frag : DocumentFragment :=
  { document_id := ⟨1, 2⟩
    location := [5]
    insertion_id := ⟨1, 2⟩
    subrange_start := 0
    subrange_stop := 3
    tombstones := []
    undo_count := 0 }

/-- An edit-loop state positioned at the start of the one-fragment
document. -/
def c7_state : EditLoopState :=
  { old := mkCursor [c7_frag]
    newFrags := []
    newIns := []
    insertion_offset := 0
    fragment_start := 0
    rb := mkRopeBuilder ['a', 'b', 'c'] []
    outEdits := [] }

/-- The state after one edit step replacing the middle character. -/
def c7_result : EditLoopState :=
  (editStep ⟨1, 3⟩ ⟨1, 2⟩ c7_state (1, 2) ['X']).getD c7_state

/-! ### Basic comparison lemmas -/

theorem natCmp_lt {a b : Nat} : natCmp a b = .lt ↔ a < b := by
  unfold natCmp
  split
  · simp_all
  · split <;> simp_all

theorem natCmp_gt {a b : Nat} : natCmp a b = .gt ↔ b < a := by
  unfold natCmp
  split
  · constructor <;> intro h <;> [cases h; omega]
  · split <;> simp_all

theorem natCmp_eq {a b : Nat} : natCmp a b = .eq ↔ a = b := by
  unfold natCmp
  split
  · constructor <;> intro h <;> [cases h; omega]
  · split
    · constructor <;> intro h <;> [cases h; omega]
    · simp_all; omega

theorem ordThen_lt {x y : Ordering} :
    x.then y = .lt ↔ x = .lt ∨ (x = .eq ∧ y = .lt) := by
  cases x <;> simp [Ordering.then]

theorem ordThen_gt {x y : Ordering} :
    x.then y = .gt ↔ x = .gt ∨ (x = .eq ∧ y = .gt) := by
  cases x <;> simp [Ordering.then]

theorem ordThen_eq {x y : Ordering} :
    x.then y = .eq ↔ x = .eq ∧ y = .eq := by
  cases x <;> simp [Ordering.then]

theorem opIdCmp_lt {a b : OperationId} :
    OperationId.cmp a b = .lt ↔
      a.replica_id < b.replica_id ∨
        (a.replica_id = b.replica_id ∧ a.operation_count < b.operation_count) := by
  unfold OperationId.cmp
  rw [ordThen_lt, natCmp_lt, natCmp_eq, natCmp_lt]

theorem opIdCmp_eq {a b : OperationId} : OperationId.cmp a b = .eq ↔ a = b := by
  unfold OperationId.cmp
  rw [ordThen_eq, natCmp_eq, natCmp_eq]
  constructor
  · rintro ⟨h1, h2⟩
    cases a; cases b; simp_all
  · intro h; cases h; exact ⟨rfl, rfl⟩

theorem opIdCmp_gt {a b : OperationId} :
    OperationId.cmp a b = .gt ↔
      b.replica_id < a.replica_id ∨
        (b.replica_id = a.replica_id ∧ b.operation_count < a.operation_count) := by
  unfold OperationId.cmp
  rw [ordThen_gt, natCmp_gt, natCmp_eq, natCmp_gt]
  constructor
  · rintro (h | ⟨h1, h2⟩)
    · exact Or.inl h
    · exact Or.inr ⟨h1.symm, h2⟩
  · rintro (h | ⟨h1, h2⟩)
    · exact Or.inl h
    · exact Or.inr ⟨h1.symm, h2⟩

theorem cntRepCmp_lt {a b : Nat × Nat} :
    cntRepCmp a b = .lt ↔ a.1 < b.1 ∨ (a.1 = b.1 ∧ a.2 < b.2) := by
  unfold cntRepCmp
  rw [ordThen_lt, natCmp_lt, natCmp_eq, natCmp_lt]

theorem opIdCmp_trans {a b c : OperationId} (h1 : OperationId.cmp a b = .lt)
    (h2 : OperationId.cmp b c = .lt) : OperationId.cmp a c = .lt := by
  rw [opIdCmp_lt] at h1 h2 ⊢
  rcases h1 with h1 | ⟨h1, h1'⟩ <;> rcases h2 with h2 | ⟨h2, h2'⟩ <;>
    [exact Or.inl (h1.trans h2); exact Or.inl (h2 ▸ h1); exact Or.inl (h1 ▸ h2);
     exact Or.inr ⟨h1.trans h2, h1'.trans h2'⟩]

/-! ### C8: fragment visibility -/

/-- C8: `DocumentFragment::visible` holds precisely when `undo_count` is even
and every tombstone's `undo_count` is odd (crdb.rs lines 970-976). -/
theorem fragment_visible_iff (f : DocumentFragment) :
    f.visible = true ↔
      f.undo_count % 2 = 0 ∧ ∀ t ∈ f.tombstones, t.undo_count % 2 = 1 := by
  unfold DocumentFragment.visible
  simp [List.all_eq_true]

/-! ### C3: the order on operation ids -/

/-- C3 counterexample: the derived `Ord` instance on `OperationId` does *not*
order ids by `(operation_count, replica_id)`: with `a = (replica 0, count 1)`
and `b = (replica 1, count 0)` the instance yields `a < b` although
`(a.operation_count, a.replica_id)` does not precede
`(b.operation_count, b.replica_id)`. -/
theorem opId_order_counterexample :
    ¬ ∀ a b : OperationId,
        (OperationId.cmp a b = .lt ↔
          cntRepCmp (a.operation_count, a.replica_id)
            (b.operation_count, b.replica_id) = .lt) := by
  intro h
  have h1 := (h ⟨0, 1⟩ ⟨1, 0⟩).mp (by decide)
  exact absurd h1 (by decide)

/-- C3 amended: the derived `Ord` on `OperationId` compares `replica_id`
first and `operation_count` as tiebreaker (the fields in declaration order);
the count-first order with replica tiebreak is the one implemented by
`is_causally_after` (crdb.rs lines 133-137). -/
theorem opId_order_spec (a b : OperationId) :
    (OperationId.cmp a b = .lt ↔
      a.replica_id < b.replica_id ∨
        (a.replica_id = b.replica_id ∧ a.operation_count < b.operation_count)) ∧
    (a.is_causally_after b = true ↔
      cntRepCmp (b.operation_count, b.replica_id)
        (a.operation_count, a.replica_id) = .lt) := by
  refine ⟨opIdCmp_lt, ?_⟩
  unfold OperationId.is_causally_after
  rw [cntRepCmp_lt]
  simp only [Bool.or_eq_true, Bool.and_eq_true, decide_eq_true_eq]
  constructor
  · rintro (h | ⟨h1, h2⟩)
    · exact Or.inl h
    · exact Or.inr ⟨h1.symm, h2⟩
  · rintro (h | ⟨h1, h2⟩)
    · exact Or.inl h
    · exact Or.inr ⟨h1.symm, h2⟩

/-! ### C6: `RevisionId::observe` -/

theorem opIdLe_iff {a b : OperationId} :
    opIdLe a b ↔ OperationId.cmp a b = .lt ∨ a = b := by
  unfold opIdLe
  constructor
  · intro h
    rcases h3 : OperationId.cmp a b with _ | _ | _
    · exact Or.inl rfl
    · exact Or.inr (opIdCmp_eq.mp h3)
    · exact absurd h3 h
  · rintro (h | rfl) <;> intro hg
    · rw [h] at hg; cases hg
    · rw [opIdCmp_eq.mpr rfl] at hg; cases hg

instance : IsTotal OperationId opIdLe := by
  constructor
  intro a b
  rw [opIdLe_iff, opIdLe_iff]
  rcases h : OperationId.cmp a b with _ | _ | _
  · exact Or.inl (Or.inl rfl)
  · exact Or.inl (Or.inr (opIdCmp_eq.mp h))
  · refine Or.inr (Or.inl ?_)
    rw [opIdCmp_lt]
    rw [opIdCmp_gt] at h
    exact h

instance : IsTrans OperationId opIdLe := by
  constructor
  intro a b c hab hbc
  rw [opIdLe_iff] at hab hbc ⊢
  rcases hab with hab | rfl
  · rcases hbc with hbc | rfl
    · exact Or.inl (opIdCmp_trans hab hbc)
    · exact Or.inl hab
  · exact hbc

/-- C6: `RevisionId::observe` (crdb.rs lines 85-91).  If every id of `parent`
is contained in `self`, the result is `self` with `parent`'s ids removed and
the operation id appended, sorted; otherwise it is `self` with the operation
id appended, sorted; and in either case the result is sorted. -/
theorem revisionId_observe_spec (self parent : RevisionId) (op : OperationId) :
    ((∀ p ∈ parent, p ∈ self) →
      RevisionId.observe self op parent =
        sortOps ((self.filter fun x => decide (x ∉ parent)) ++ [op])) ∧
    ((¬ ∀ p ∈ parent, p ∈ self) →
      RevisionId.observe self op parent = sortOps (self ++ [op])) ∧
    List.Sorted opIdLe (RevisionId.observe self op parent) := by
  unfold RevisionId.observe
  refine ⟨?_, ?_, ?_⟩
  · intro h
    have hall : parent.all (fun op_id => self.contains op_id) = true := by
      simp [List.all_eq_true]
      exact h
    rw [hall]
    simp only [Bool.not_eq_true']
    congr 2
    apply List.filter_congr
    intro x _
    simp
  · intro h
    have hall : parent.all (fun op_id => self.contains op_id) = false := by
      simp [List.all_eq_true] at h ⊢
      simpa using h
    rw [hall]
    simp
  · split <;> exact List.sorted_insertionSort opIdLe _

/-! ### C10: `Document::edit` panics on an empty edit list -/

/-- C10: the edit closure of `Document::edit` unconditionally unwraps the
first edit (crdb.rs line 1210, `edits.peek().unwrap()`), so an empty edit
list panics (modelled as `none`) for every document and revision rather than
being a no-op. -/
theorem document_edit_empty_panics (docId editId : OperationId) (rev : Revision) :
    editCore docId editId rev [] = none := by
  unfold editCore
  rfl

/-! ### C4: idempotence of `apply_operations` -/

/-- C4: `apply_operations` skips operations that are already in the log
(crdb.rs lines 1721-1723): when the snapshot's `operations` map contains the
operation's id, processing it leaves the snapshot and the queue unchanged,
so applying the operation once — and applying it twice — both return the
snapshot unchanged. -/
theorem apply_operations_idempotent (s : RepoSnapshot) (op : Operation)
    (fuel q_fuel : Nat)
    (h : alContains OperationId.cmp op.opId s.operations = true) :
    (∀ q, applyStep fuel s op q = (s, q)) ∧
    applyOperationsAux (fuel + 1) s [op] = some s ∧
    applyOperationsAux (q_fuel + 2) s [op, op] = some s := by
  have hstep : ∀ f q, applyStep f s op q = (s, q) := by
    intro f q
    unfold applyStep
    rw [h]
    simp
  refine ⟨hstep fuel, ?_, ?_⟩
  · show applyOperationsAux (fuel + 1) s [op] = some s
    unfold applyOperationsAux
    rw [hstep]
    simp [applyOperationsAux]
  · show applyOperationsAux (q_fuel + 2) s [op, op] = some s
    unfold applyOperationsAux
    rw [hstep]
    simp only
    unfold applyOperationsAux
    rw [hstep]
    simp [applyOperationsAux]

theorem apply_operations_idempotent_witness :
    alContains OperationId.cmp c4_op.opId c4_snapshot.operations = true ∧
    applyStep 5 c4_snapshot c4_op [] = (c4_snapshot, []) ∧
    applyOperationsAux 6 c4_snapshot [c4_op] = some c4_snapshot ∧
    applyOperationsAux 7 c4_snapshot [c4_op, c4_op] = some c4_snapshot :=
  have h : alContains OperationId.cmp c4_op.opId c4_snapshot.operations = true := by decide
  ⟨h, (apply_operations_idempotent c4_snapshot c4_op 5 5 h).1 [],
    (apply_operations_idempotent c4_snapshot c4_op 5 5 h).2.1,
    (apply_operations_idempotent c4_snapshot c4_op 5 5 h).2.2⟩

/-- Witness for C6 at concrete inputs: the contained case removes the parent
id, the non-contained case keeps the whole frontier. -/
theorem revisionId_observe_spec_witness :
    RevisionId.observe [⟨1, 1⟩, ⟨2, 1⟩] ⟨1, 2⟩ [⟨1, 1⟩] =
      sortOps ((([⟨1, 1⟩, ⟨2, 1⟩] : List OperationId).filter
        fun x => decide (x ∉ ([⟨1, 1⟩] : List OperationId))) ++ [⟨1, 2⟩]) ∧
    RevisionId.observe [⟨2, 1⟩] ⟨1, 2⟩ [⟨1, 1⟩] =
      sortOps (([⟨2, 1⟩] : List OperationId) ++ [⟨1, 2⟩]) :=
  ⟨(revisionId_observe_spec [⟨1, 1⟩, ⟨2, 1⟩] [⟨1, 1⟩] ⟨1, 2⟩).1 (by decide),
   (revisionId_observe_spec [⟨2, 1⟩] [⟨1, 1⟩] ⟨1, 2⟩).2.1 (by decide)⟩

/-! ### Association-list lemmas -/

theorem natCmpLaws : CmpLaws natCmp where
  eq_iff := fun a b => natCmp_eq
  lt_asymm := fun a b h => natCmp_gt.mpr (natCmp_lt.mp h)
  gt_asymm := fun a b h => natCmp_lt.mpr (natCmp_gt.mp h)
  lt_trans := fun a b c h1 h2 => natCmp_lt.mpr ((natCmp_lt.mp h1).trans (natCmp_lt.mp h2))

theorem opIdCmpLaws : CmpLaws OperationId.cmp where
  eq_iff := fun a b => opIdCmp_eq
  lt_asymm := fun a b h => by
    rw [opIdCmp_gt]
    rw [opIdCmp_lt] at h
    exact h
  gt_asymm := fun a b h => by
    rw [opIdCmp_lt]
    rw [opIdCmp_gt] at h
    exact h
  lt_trans := fun a b c h1 h2 => opIdCmp_trans h1 h2

section AssocLemmas

variable {α β : Type} {cmp : α → α → Ordering}

theorem cmp_self_eq (L : CmpLaws cmp) (k : α) : cmp k k = .eq :=
  (L.eq_iff k k).mpr rfl

theorem alGet_insert_self (L : CmpLaws cmp) (k : α) (v : β) (l : List (α × β)) :
    alGet cmp k (alInsert cmp k v l) = some v := by
  induction l with
  | nil => simp [alInsert, alGet, cmp_self_eq L]
  | cons e rest ih =>
    unfold alInsert
    rcases h : cmp k e.1 with _ | _ | _ <;> simp only []
    · unfold alGet
      rw [cmp_self_eq L]
    · unfold alGet
      rw [cmp_self_eq L]
    · unfold alGet
      rw [h]
      exact ih

theorem alGet_insert_ne (L : CmpLaws cmp) {k' k : α} (v : β) (l : List (α × β))
    (hne : k' ≠ k) : alGet cmp k' (alInsert cmp k v l) = alGet cmp k' l := by
  have hkk : cmp k' k ≠ .eq := fun h => hne ((L.eq_iff k' k).mp h)
  induction l with
  | nil =>
    unfold alInsert alGet
    rcases h : cmp k' k with _ | _ | _
    · rfl
    · exact absurd h hkk
    · simp [alGet]
  | cons e rest ih =>
    unfold alInsert
    rcases h : cmp k e.1 with _ | _ | _ <;> simp only []
    · show alGet cmp k' ((k, v) :: e :: rest) = alGet cmp k' (e :: rest)
      unfold alGet
      rcases h2 : cmp k' k with _ | _ | _
      · have h3 : cmp k' e.1 = .lt := L.lt_trans _ _ _ h2 h
        unfold alGet
        rw [h3]
      · exact absurd h2 hkk
      · rfl
    · show alGet cmp k' ((k, v) :: rest) = alGet cmp k' (e :: rest)
      have hke : k = e.1 := (L.eq_iff k e.1).mp h
      unfold alGet
      rcases h2 : cmp k' k with _ | _ | _
      · rw [hke] at h2
        rw [h2]
      · exact absurd h2 hkk
      · rw [hke] at h2
        rw [h2]
    · show alGet cmp k' (e :: alInsert cmp k v rest) = alGet cmp k' (e :: rest)
      unfold alGet
      rcases h2 : cmp k' e.1 with _ | _ | _
      · rfl
      · rfl
      · exact ih

end AssocLemmas

/-! ### Frame lemmas for `load_revision` -/

theorem onlyRevisionsDiffer_refl (a : RepoSnapshot) : onlyRevisionsDiffer a a :=
  ⟨rfl, rfl, rfl, rfl, rfl, rfl⟩

theorem onlyRevisionsDiffer_trans {a b c : RepoSnapshot}
    (h1 : onlyRevisionsDiffer a b) (h2 : onlyRevisionsDiffer b c) :
    onlyRevisionsDiffer a c :=
  ⟨h2.1.trans h1.1, h2.2.1.trans h1.2.1, h2.2.2.1.trans h1.2.2.1,
   h2.2.2.2.1.trans h1.2.2.2.1, h2.2.2.2.2.1.trans h1.2.2.2.2.1,
   h2.2.2.2.2.2.trans h1.2.2.2.2.2⟩

/-- `load_revision` mutates only the revision cache: every other field of the
snapshot is unchanged (crdb.rs lines 1830-1930 touch only `revisions`). -/
theorem loadRevision_frame :
    ∀ (fuel : Nat) (s : RepoSnapshot) (rid : RevisionId),
      onlyRevisionsDiffer s (loadRevision fuel s rid).1 := by
  intro fuel
  induction fuel with
  | zero =>
    intro s rid
    unfold loadRevision
    exact onlyRevisionsDiffer_refl s
  | succ fuel' ih =>
    intro s rid
    have hstep : ∀ (acc : RepoSnapshot × Option Revision) (cr : Nat × Nat),
        onlyRevisionsDiffer s acc.1 →
        onlyRevisionsDiffer s (applyMissingStep fuel' acc cr).1 := by
      intro acc cr hacc
      unfold applyMissingStep
      split
      · exact hacc
      · rename_i s' commonAcc
        split
        · exact hacc
        · rename_i op halg
          have hload := ih s' op.parent
          split
          · exact hacc
          · exact hacc
          · rename_i e
            split <;> rename_i s'' o2 hl
            · have := ih s' e.parent
              rw [hl] at this
              exact onlyRevisionsDiffer_trans hacc this
            · have := ih s' e.parent
              rw [hl] at this
              split
              · exact onlyRevisionsDiffer_trans hacc this
              · exact onlyRevisionsDiffer_trans hacc this
    have hfold : ∀ (l : List (Nat × Nat)) (acc : RepoSnapshot × Option Revision),
        onlyRevisionsDiffer s acc.1 →
        onlyRevisionsDiffer s (l.foldl (applyMissingStep fuel') acc).1 := by
      intro l
      induction l with
      | nil => intro acc hacc; exact hacc
      | cons x xs ihl =>
        intro acc hacc
        exact ihl _ (hstep acc x hacc)
    unfold loadRevision
    split
    · exact onlyRevisionsDiffer_refl s
    · simp only []
      split
      · exact onlyRevisionsDiffer_refl s
      · split
        · exact onlyRevisionsDiffer_refl s
        · rename_i osf hosf
          have hres := hfold
            (osf.1.filter (fun p => cntRepCmp ((osf.2.map (fun f => f.2)).getD (0, 0)) p != .gt))
            (s, some ((osf.2.map (fun f => f.1)).getD Revision.empty))
            (onlyRevisionsDiffer_refl s)
          split <;> rename_i s' ho hfoldeq
          · rw [hfoldeq] at hres
            exact hres
          · rw [hfoldeq] at hres
            exact ⟨hres.1, hres.2.1, hres.2.2.1, hres.2.2.2.1,
              hres.2.2.2.2.1, hres.2.2.2.2.2⟩

/-! ### C9: the `max_operation_ids` invariant -/

theorem maxCountOf_cons (e : OperationId × Operation)
    (rest : List (OperationId × Operation)) (r : Nat) :
    maxCountOf (e :: rest) r =
      if e.1.replica_id = r then
        some (max e.1.operation_count ((maxCountOf rest r).getD 0))
      else maxCountOf rest r := by
  show (if e.1.replica_id = r then
      match maxCountOf rest r with
      | none => some e.1.operation_count
      | some m => some (max e.1.operation_count m)
    else maxCountOf rest r) = _
  split
  · cases hm : maxCountOf rest r <;> simp
  · rfl

theorem maxCountOf_insert (k : OperationId) (v : Operation)
    (ops : List (OperationId × Operation)) (r : Nat) :
    maxCountOf (alInsert OperationId.cmp k v ops) r =
      if k.replica_id = r then
        some (max k.operation_count ((maxCountOf ops r).getD 0))
      else maxCountOf ops r := by
  induction ops with
  | nil =>
    show maxCountOf [(k, v)] r = _
    rw [maxCountOf_cons]
  | cons e rest ih =>
    unfold alInsert
    rcases h : OperationId.cmp k e.1 with _ | _ | _ <;> simp only []
    · rw [maxCountOf_cons]
    · have hke : k = e.1 := opIdCmp_eq.mp h
      rw [maxCountOf_cons, maxCountOf_cons, ← hke]
      split_ifs <;>
        first
          | rfl
          | (simp only [Option.getD_some]; congr 1; omega)
    · rw [maxCountOf_cons, maxCountOf_cons, ih]
      split_ifs <;>
        first
          | rfl
          | (simp only [Option.getD_some]; congr 1; omega)

/-- C9: the `max_operation_ids` invariant — for every replica `r`, the stored
count equals the maximum operation count over all log entries by `r` — holds
for the default snapshot, and is preserved by `save_operation` and hence by
every `apply_operations` step and run (which insert operations only through
`save_operation`; crdb.rs lines 1816-1824). -/
theorem save_operation_fields (s : RepoSnapshot) (op : Operation) :
    (s.save_operation op).operations = alInsert OperationId.cmp op.opId op s.operations ∧
    (s.save_operation op).max_operation_ids =
      (if optCountLt (alGet natCmp op.opId.replica_id s.max_operation_ids)
          op.opId.operation_count then
        alInsert natCmp op.opId.replica_id op.opId.operation_count s.max_operation_ids
      else s.max_operation_ids) ∧
    (s.save_operation op).deferred_operations = s.deferred_operations ∧
    (s.save_operation op).branches = s.branches ∧
    (s.save_operation op).revisions = s.revisions := by
  by_cases hc : optCountLt (alGet natCmp op.opId.replica_id s.max_operation_ids)
      op.opId.operation_count = true <;>
    simp [RepoSnapshot.save_operation, hc]

theorem maxOpInvariant_of_eq {s t : RepoSnapshot} (h1 : t.operations = s.operations)
    (h2 : t.max_operation_ids = s.max_operation_ids) (hinv : maxOpInvariant s) :
    maxOpInvariant t := by
  intro r
  rw [h2, h1]
  exact hinv r

theorem maxOpInvariant_save :
    ∀ s op, maxOpInvariant s → maxOpInvariant (s.save_operation op) := by
  intro s op hinv r
  obtain ⟨hops, hmax, _hrest⟩ := save_operation_fields s op
  rw [hops, hmax, maxCountOf_insert]
  by_cases hr : op.opId.replica_id = r
  · rw [if_pos hr]
    subst hr
    rcases hold : alGet natCmp op.opId.replica_id s.max_operation_ids with _ | m0
    · rw [if_pos (show optCountLt none op.opId.operation_count = true from rfl)]
      rw [alGet_insert_self natCmpLaws, ← hinv _, hold]
      simp
    · by_cases hlt : m0 < op.opId.operation_count
      · rw [if_pos (show optCountLt (some m0) op.opId.operation_count = true by
          simp [optCountLt, hlt])]
        rw [alGet_insert_self natCmpLaws, ← hinv _, hold]
        simp only [Option.getD_some]
        congr 1
        omega
      · rw [if_neg (show ¬ optCountLt (some m0) op.opId.operation_count = true by
          simp [optCountLt]; omega)]
        rw [hold, ← hinv _, hold]
        simp only [Option.getD_some]
        congr 1
        omega
  · rw [if_neg hr]
    split
    · rw [alGet_insert_ne natCmpLaws _ _ (fun he => hr he.symm)]
      exact hinv r
    · exact hinv r

theorem maxOpInvariant_applyStep :
    ∀ fuel s op q, maxOpInvariant s → maxOpInvariant (applyStep fuel s op q).1 := by
  intro fuel s op q hinv
  unfold applyStep
  split
  · exact hinv
  · split
    · simp only []
      split
      · exact hinv
      · rename_i sh hsh
        have hfields : sh.1.operations = s.operations ∧
            sh.1.max_operation_ids = s.max_operation_ids := by
          split at hsh
          · cases hsh
            exact ⟨rfl, rfl⟩
          · split at hsh
            · cases hsh
            · cases hsh
              exact ⟨rfl, rfl⟩
          · split at hsh
            · cases hsh
            · cases hsh
              exact ⟨rfl, rfl⟩
        have hsave : maxOpInvariant (sh.1.save_operation op) :=
          maxOpInvariant_save _ _ (maxOpInvariant_of_eq hfields.1 hfields.2 hinv)
        have hflush : maxOpInvariant
            ((sh.1.save_operation op).flush_deferred_operations op.opId q).1 :=
          maxOpInvariant_of_eq rfl rfl hsave
        have hframe := loadRevision_frame fuel
          ((sh.1.save_operation op).flush_deferred_operations op.opId q).1 sh.2
        exact maxOpInvariant_of_eq hframe.2.2.2.1 hframe.2.2.2.2.1 hflush
    · exact maxOpInvariant_of_eq rfl rfl hinv

theorem maxOpInvariant_aux :
    ∀ fuel s ops s', maxOpInvariant s → applyOperationsAux fuel s ops = some s' →
      maxOpInvariant s' := by
  intro fuel
  induction fuel with
  | zero =>
    intro s ops s' hinv heq
    cases ops with
    | nil => cases heq; exact hinv
    | cons op rest => cases heq
  | succ fuel' ih =>
    intro s ops s' hinv heq
    cases ops with
    | nil => cases heq; exact hinv
    | cons op rest =>
      exact ih _ _ _ (maxOpInvariant_applyStep (fuel' + 1) s op rest hinv) heq

/-- C9: the `max_operation_ids` invariant — for every replica `r`, the stored
count equals the maximum operation count over all log entries by `r` — holds
for the default snapshot, is preserved by `save_operation`, and hence by
every `apply_operations` step and by every completed `apply_operations` run
(which insert operations only through `save_operation`; crdb.rs lines
1816-1824). -/
theorem max_operation_ids_invariant :
    maxOpInvariant RepoSnapshot.base ∧
    (∀ s op, maxOpInvariant s → maxOpInvariant (s.save_operation op)) ∧
    (∀ fuel s op q, maxOpInvariant s → maxOpInvariant (applyStep fuel s op q).1) ∧
    (∀ fuel s ops s', maxOpInvariant s →
      RepoSnapshot.apply_operations fuel s ops = some s' → maxOpInvariant s') :=
  ⟨fun _ => rfl, maxOpInvariant_save, maxOpInvariant_applyStep,
   fun fuel s ops s' h1 h2 => maxOpInvariant_aux fuel s ops s' h1 h2⟩

/-- Witness for C9: the default snapshot satisfies the invariant, and saving
or applying a concrete operation keeps it. -/
theorem max_operation_ids_invariant_witness :
    maxOpInvariant (RepoSnapshot.base.save_operation c4_op) ∧
    maxOpInvariant (applyStep 3 RepoSnapshot.base c4_op []).1 ∧
    maxOpInvariant c4_snapshot :=
  ⟨max_operation_ids_invariant.2.1 RepoSnapshot.base c4_op
      max_operation_ids_invariant.1,
   max_operation_ids_invariant.2.2.1 3 RepoSnapshot.base c4_op []
      max_operation_ids_invariant.1,
   max_operation_ids_invariant.2.1 RepoSnapshot.base c4_op
      max_operation_ids_invariant.1⟩

/-! ### C2: deferral and flushing of operations -/

theorem defKeyCmp_eq_iff {a b : DeferredOperation} :
    defKeyCmp a b = .eq ↔ a.parent = b.parent ∧ a.operation.opId = b.operation.opId := by
  unfold defKeyCmp
  rw [ordThen_eq, opIdCmp_eq, opIdCmp_eq]

theorem defKeyCmp_lt_trans {a b c : DeferredOperation} (h1 : defKeyCmp a b = .lt)
    (h2 : defKeyCmp b c = .lt) : defKeyCmp a c = .lt := by
  unfold defKeyCmp at h1 h2 ⊢
  rw [ordThen_lt] at h1 h2 ⊢
  rcases h1 with h1 | ⟨h1, h1'⟩ <;> rcases h2 with h2 | ⟨h2, h2'⟩
  · exact Or.inl (opIdCmp_trans h1 h2)
  · exact Or.inl (opIdCmp_eq.mp h2 ▸ h1)
  · exact Or.inl (opIdCmp_eq.mp h1 ▸ h2)
  · exact Or.inr ⟨(opIdCmp_eq.mp h1 ▸ h2 : _), opIdCmp_trans h1' h2'⟩

theorem defKeyCmp_eq_symm {a b : DeferredOperation} :
    defKeyCmp a b = .eq ↔ defKeyCmp b a = .eq := by
  rw [defKeyCmp_eq_iff, defKeyCmp_eq_iff]
  constructor <;> rintro ⟨h1, h2⟩ <;> exact ⟨h1.symm, h2.symm⟩

theorem defKeyCmp_not_eq_of_lt {a b : DeferredOperation} (h : defKeyCmp a b = .lt) :
    defKeyCmp b a ≠ .eq := by
  intro hc
  have := defKeyCmp_eq_symm.mp hc
  rw [h] at this
  cases this

theorem defKeyCmp_not_eq_of_gt {a b : DeferredOperation} (h : defKeyCmp a b = .gt) :
    defKeyCmp b a ≠ .eq := by
  intro hc
  have := defKeyCmp_eq_symm.mp hc
  rw [h] at this
  cases this

/-- Membership in `insert_or_replace` on a key-sorted deferred sequence: the
new entry is present, and an old entry survives iff its key differs. -/
theorem mem_dInsertOrReplace (d : DeferredOperation) :
    ∀ (l : List DeferredOperation), dSorted l →
      ∀ e, e ∈ dInsertOrReplace d l ↔
        e = d ∨ (e ∈ l ∧ defKeyCmp e d ≠ .eq) := by
  intro l
  induction l with
  | nil =>
    intro _ e
    simp [dInsertOrReplace]
  | cons f rest ih =>
    intro hs e
    obtain ⟨hf, hrest⟩ := List.pairwise_cons.mp hs
    unfold dInsertOrReplace
    rcases h : defKeyCmp d f with _ | _ | _ <;> simp only []
    · -- d inserted strictly before f
      constructor
      · intro he
        rcases List.mem_cons.mp he with rfl | he2
        · exact Or.inl rfl
        · refine Or.inr ⟨he2, ?_⟩
          rcases List.mem_cons.mp he2 with rfl | he3
          · exact defKeyCmp_not_eq_of_lt h
          · exact defKeyCmp_not_eq_of_lt (defKeyCmp_lt_trans h (hf e he3))
      · rintro (rfl | ⟨he, _⟩)
        · exact List.mem_cons_self _ _
        · exact List.mem_cons_of_mem _ he
    · -- d replaces f (equal keys)
      constructor
      · intro he
        rcases List.mem_cons.mp he with rfl | he2
        · exact Or.inl rfl
        · refine Or.inr ⟨List.mem_cons_of_mem _ he2, ?_⟩
          intro hc
          have hfe : defKeyCmp f e = .eq := by
            rw [defKeyCmp_eq_iff] at h hc ⊢
            exact ⟨h.1.symm.trans hc.1.symm, h.2.symm.trans hc.2.symm⟩
          have := hf e he2
          rw [hfe] at this
          cases this
      · rintro (rfl | ⟨he, hne⟩)
        · exact List.mem_cons_self _ _
        · rcases List.mem_cons.mp he with rfl | he2
          · exact absurd (defKeyCmp_eq_symm.mp h) hne
          · exact List.mem_cons_of_mem _ he2
    · -- keep f, insert into the tail
      constructor
      · intro he
        rcases List.mem_cons.mp he with rfl | he2
        · exact Or.inr ⟨List.mem_cons_self _ _, defKeyCmp_not_eq_of_gt h⟩
        · rcases ((ih hrest) e).mp he2 with rfl | ⟨he3, hne⟩
          · exact Or.inl rfl
          · exact Or.inr ⟨List.mem_cons_of_mem _ he3, hne⟩
      · rintro (rfl | ⟨he, hne⟩)
        · exact List.mem_cons_of_mem _ (((ih hrest) e).mpr (Or.inl rfl))
        · rcases List.mem_cons.mp he with rfl | he2
          · exact List.mem_cons_self _ _
          · exact List.mem_cons_of_mem _ (((ih hrest) e).mpr (Or.inr ⟨he2, hne⟩))

theorem defKeyCmp_eq_lt_trans {a b c : DeferredOperation} (h1 : defKeyCmp a b = .eq)
    (h2 : defKeyCmp b c = .lt) : defKeyCmp a c = .lt := by
  rw [defKeyCmp_eq_iff] at h1
  unfold defKeyCmp at h2 ⊢
  rw [← h1.1, ← h1.2] at h2
  exact h2

theorem defKeyCmp_gt_asymm {a b : DeferredOperation} (h : defKeyCmp a b = .gt) :
    defKeyCmp b a = .lt := by
  unfold defKeyCmp at h ⊢
  rw [ordThen_gt] at h
  rw [ordThen_lt]
  rcases h with h | ⟨h1, h2⟩
  · exact Or.inl (opIdCmpLaws.gt_asymm _ _ h)
  · exact Or.inr ⟨opIdCmp_eq.mpr (opIdCmp_eq.mp h1).symm, opIdCmpLaws.gt_asymm _ _ h2⟩

theorem dSorted_dInsertOrReplace (d : DeferredOperation) :
    ∀ l, dSorted l → dSorted (dInsertOrReplace d l) := by
  intro l
  induction l with
  | nil =>
    intro _
    simp [dInsertOrReplace, dSorted]
  | cons f rest ih =>
    intro hs
    obtain ⟨hf, hrest⟩ := List.pairwise_cons.mp hs
    unfold dInsertOrReplace
    rcases h : defKeyCmp d f with _ | _ | _ <;> simp only []
    · refine List.pairwise_cons.mpr ⟨?_, hs⟩
      intro x hx
      rcases List.mem_cons.mp hx with rfl | hx2
      · exact h
      · exact defKeyCmp_lt_trans h (hf x hx2)
    · refine List.pairwise_cons.mpr ⟨?_, hrest⟩
      intro x hx
      exact defKeyCmp_eq_lt_trans h (hf x hx)
    · refine List.pairwise_cons.mpr ⟨?_, ih hrest⟩
      intro x hx
      rcases (mem_dInsertOrReplace d rest hrest x).mp hx with rfl | ⟨hx2, _⟩
      · exact defKeyCmp_gt_asymm h
      · exact hf x hx2

/-- The deferral loop of `apply_operations` (crdb.rs lines 1782-1791)
characterised: folding `insert_or_replace` over the operation's parents
leaves a sorted sequence containing exactly one entry per parent for the
operation, with old entries surviving iff their key collides with none of the
new ones. -/
theorem foldl_dIOR_spec (op : Operation) :
    ∀ (ps : List OperationId) (acc : List DeferredOperation), dSorted acc →
      dSorted (ps.foldl (fun d parent => dInsertOrReplace ⟨parent, op⟩ d) acc) ∧
      (∀ e, e ∈ ps.foldl (fun d parent => dInsertOrReplace ⟨parent, op⟩ d) acc ↔
        (e.parent ∈ ps ∧ e.operation = op) ∨
        (e ∈ acc ∧ ¬(e.parent ∈ ps ∧ e.operation.opId = op.opId))) := by
  intro ps
  induction ps with
  | nil =>
    intro acc hacc
    refine ⟨hacc, fun e => ?_⟩
    simp
  | cons p ps ihp =>
    intro acc hacc
    have hins : dSorted (dInsertOrReplace ⟨p, op⟩ acc) :=
      dSorted_dInsertOrReplace _ _ hacc
    obtain ⟨hs1, hmem1⟩ := ihp (dInsertOrReplace ⟨p, op⟩ acc) hins
    refine ⟨hs1, fun e => ?_⟩
    show e ∈ ps.foldl _ (dInsertOrReplace ⟨p, op⟩ acc) ↔ _
    rw [hmem1 e]
    constructor
    · rintro (⟨hp, hop⟩ | ⟨hin, hnot⟩)
      · exact Or.inl ⟨List.mem_cons_of_mem _ hp, hop⟩
      · rcases (mem_dInsertOrReplace _ _ hacc e).mp hin with rfl | ⟨hin2, hkey⟩
        · exact Or.inl ⟨List.mem_cons_self _ _, rfl⟩
        · refine Or.inr ⟨hin2, ?_⟩
          rintro ⟨hpp, hid⟩
          rcases List.mem_cons.mp hpp with hpe | hppp
          · exact hkey (defKeyCmp_eq_iff.mpr ⟨hpe, hid⟩)
          · exact hnot ⟨hppp, hid⟩
    · rintro (⟨hp, hop⟩ | ⟨hin, hnot⟩)
      · rcases List.mem_cons.mp hp with hpe | hpp
        · by_cases hps : e.parent ∈ ps
          · exact Or.inl ⟨hps, hop⟩
          · refine Or.inr ⟨?_, fun hc => hps hc.1⟩
            refine (mem_dInsertOrReplace _ _ hacc e).mpr (Or.inl ?_)
            cases e with
            | mk pe oe =>
              cases hpe
              cases hop
              rfl
        · exact Or.inl ⟨hpp, hop⟩
      · refine Or.inr ⟨?_, fun hc => hnot ⟨List.mem_cons_of_mem _ hc.1, hc.2⟩⟩
        refine (mem_dInsertOrReplace _ _ hacc e).mpr (Or.inr ⟨hin, ?_⟩)
        intro hc
        obtain ⟨h1, h2⟩ := defKeyCmp_eq_iff.mp hc
        exact hnot ⟨h1 ▸ List.mem_cons_self _ _, h2⟩

/-- On a pairwise-ordered list, a predicate that is upward-closed towards the
front (`R x y → p y → p x`) makes `takeWhile` agree with `filter`, and the
rest of the list with the negated filter. -/
theorem takeWhile_filter_of_ordered {α : Type} (p : α → Bool) (R : α → α → Prop)
    (hmono : ∀ x y, R x y → p y = true → p x = true) :
    ∀ (l : List α), List.Pairwise R l →
      l.takeWhile p = l.filter p ∧
      l.drop (l.takeWhile p).length = l.filter (fun a => !(p a)) := by
  intro l
  induction l with
  | nil => intro _; simp
  | cons f rest ih =>
    intro hp
    obtain ⟨hf, hrest⟩ := List.pairwise_cons.mp hp
    obtain ⟨ih1, ih2⟩ := ih hrest
    by_cases hpf : p f = true
    · rw [List.takeWhile_cons, List.filter_cons, List.filter_cons, if_pos hpf, if_pos hpf]
      refine ⟨by rw [ih1], ?_⟩
      rw [List.length_cons, List.drop_succ_cons, ih2, hpf]
      simp
    · have hall : ∀ x ∈ rest, p x = false := by
        intro x hx
        by_contra hc
        exact hpf (hmono f x (hf x hx) (Bool.of_not_eq_false hc))
      rw [List.takeWhile_cons, List.filter_cons, List.filter_cons, if_neg hpf]
      have hpf' : p f = false := Bool.of_not_eq_true hpf
      constructor
      · rw [if_neg hpf]
        rw [List.filter_eq_nil_iff.mpr (fun a ha => by rw [hall a ha]; exact fun h => by cases h)]
      · rw [List.length_nil, List.drop_zero, hpf']
        simp only [Bool.not_false, if_true]
        congr 1
        refine (List.filter_eq_self.mpr ?_).symm
        intro a ha
        rw [hall a ha]
        rfl

theorem kLt_parent_le {a b : DeferredOperation} (h : defKeyCmp a b = .lt) :
    OperationId.cmp a.parent b.parent = .lt ∨ a.parent = b.parent := by
  unfold defKeyCmp at h
  rw [ordThen_lt] at h
  rcases h with h | ⟨h1, _⟩
  · exact Or.inl h
  · exact Or.inr (opIdCmp_eq.mp h1)

/-- On a key-sorted deferred sequence, the entries with parent below, equal
to, and above a given id form three consecutive blocks. -/
theorem filter_parent_blocks (pid : OperationId) :
    ∀ (l : List DeferredOperation), dSorted l →
      l.filter (fun d => OperationId.cmp d.parent pid == .lt) ++
        l.filter (fun d => OperationId.cmp d.parent pid == .gt) =
      l.filter (fun d => !(OperationId.cmp d.parent pid == .eq)) := by
  intro l
  induction l with
  | nil => intro _; simp
  | cons f rest ih =>
    intro hs
    obtain ⟨hf, hrest⟩ := List.pairwise_cons.mp hs
    rw [List.filter_cons, List.filter_cons, List.filter_cons]
    rcases h : OperationId.cmp f.parent pid with _ | _ | _
    · rw [if_pos (by decide), if_neg (by decide), if_pos (by decide)]
      rw [List.cons_append, ih hrest]
    · rw [if_neg (by decide), if_neg (by decide), if_neg (by decide)]
      exact ih hrest
    · have hall : ∀ x ∈ rest, OperationId.cmp x.parent pid = .gt := by
        intro x hx
        rcases kLt_parent_le (hf x hx) with hlt | heq
        · rw [opIdCmp_gt] at h ⊢
          rw [opIdCmp_lt] at hlt
          omega
        · rw [← heq]
          exact h
      rw [if_neg (by decide), if_pos (by decide), if_pos (by decide)]
      have h1 : rest.filter (fun d => OperationId.cmp d.parent pid == .lt) = [] := by
        rw [List.filter_eq_nil_iff]
        intro a ha
        rw [hall a ha]
        exact fun hc => by cases hc
      have h2 : rest.filter (fun d => OperationId.cmp d.parent pid == .gt) =
          rest.filter (fun d => !(OperationId.cmp d.parent pid == .eq)) := by
        apply List.filter_congr
        intro a ha
        rw [hall a ha]
        rfl
      rw [h1, List.nil_append, h2]

/-- `flush_deferred_operations` on a key-sorted sequence removes exactly the
entries deferred on the given parent and appends their operations to the back
of the queue (crdb.rs lines 1798-1814). -/
theorem flush_deferred_spec (s : RepoSnapshot) (pid : OperationId) (q : List Operation)
    (hs : dSorted s.deferred_operations) :
    (s.flush_deferred_operations pid q).1.deferred_operations =
      s.deferred_operations.filter (fun d => !(OperationId.cmp d.parent pid == .eq)) ∧
    (s.flush_deferred_operations pid q).2 =
      q ++ (s.deferred_operations.filter
        (fun d => OperationId.cmp d.parent pid == .eq)).map (fun d => d.operation) := by
  have hbeq : ∀ c c' : Ordering, ((c == c') = true) ↔ c = c' := by
    intro c c'
    cases c <;> cases c' <;> decide
  have hm1 : ∀ x y : DeferredOperation, defKeyCmp x y = .lt →
      (OperationId.cmp y.parent pid == .lt) = true →
      (OperationId.cmp x.parent pid == .lt) = true := by
    intro x y hxy hy
    rw [hbeq] at hy ⊢
    rcases kLt_parent_le hxy with hlt | heq
    · exact opIdCmp_trans hlt hy
    · rw [heq]
      exact hy
  have hbne : ∀ c : Ordering, ((c != Ordering.gt) = true) ↔ c ≠ Ordering.gt := by
    intro c
    cases c <;> decide
  have hm2 : ∀ x y : DeferredOperation, defKeyCmp x y = .lt →
      (OperationId.cmp y.parent pid != .gt) = true →
      (OperationId.cmp x.parent pid != .gt) = true := by
    intro x y hxy hy
    rw [hbne] at hy ⊢
    intro hcx
    rcases kLt_parent_le hxy with hlt | heq
    · apply hy
      rw [opIdCmp_gt] at hcx ⊢
      rw [opIdCmp_lt] at hlt
      omega
    · rw [heq] at hcx
      exact hy hcx
  obtain ⟨ht1, hd1⟩ := takeWhile_filter_of_ordered
    (fun d => OperationId.cmp d.parent pid == .lt) _ hm1 s.deferred_operations hs
  have hrest1 : dSorted (s.deferred_operations.filter
      (fun d => !(OperationId.cmp d.parent pid == .lt))) := hs.filter _
  obtain ⟨ht2, hd2⟩ := takeWhile_filter_of_ordered
    (fun d => OperationId.cmp d.parent pid != .gt) _ hm2 _ hrest1
  have hcomb1 : ∀ (c : Ordering), ((c != Ordering.gt) && !(c == Ordering.lt)) =
      (c == Ordering.eq) := by
    intro c
    cases c <;> rfl
  have hcomb2 : ∀ (c : Ordering), (!(c != Ordering.gt) && !(c == Ordering.lt)) =
      (c == Ordering.gt) := by
    intro c
    cases c <;> rfl
  have hmid : (s.deferred_operations.filter
        (fun d => !(OperationId.cmp d.parent pid == .lt))).takeWhile
        (fun d => OperationId.cmp d.parent pid != .gt) =
      s.deferred_operations.filter (fun d => OperationId.cmp d.parent pid == .eq) := by
    rw [ht2, List.filter_filter]
    congr 1
    funext d
    exact hcomb1 (OperationId.cmp d.parent pid)
  have hrest2 : (s.deferred_operations.filter
        (fun d => !(OperationId.cmp d.parent pid == .lt))).drop
        ((s.deferred_operations.filter
          (fun d => !(OperationId.cmp d.parent pid == .lt))).takeWhile
          (fun d => OperationId.cmp d.parent pid != .gt)).length =
      s.deferred_operations.filter (fun d => OperationId.cmp d.parent pid == .gt) := by
    rw [hd2, List.filter_filter]
    congr 1
    funext d
    exact hcomb2 (OperationId.cmp d.parent pid)
  constructor
  · simp only [RepoSnapshot.flush_deferred_operations]
    rw [hd1, hrest2, ht1]
    exact filter_parent_blocks pid s.deferred_operations hs
  · simp only [RepoSnapshot.flush_deferred_operations]
    rw [hd1, hmid]

/-- C2 counterexample: processing `c2x_op` (parents `(1,1)` present, `(2,1)`
missing) inserts a deferred entry for *both* parents, including the present
one — so "one DeferredOperation is inserted for each missing parent" does not
describe the code: the code inserts one entry per parent, missing or not
(crdb.rs lines 1783-1791 iterate over `operation.parent()`, not over the
missing parents). -/
theorem apply_defer_counterexample :
    alContains OperationId.cmp ⟨1, 1⟩ c2x_snapshot.operations = true ∧
    alContains OperationId.cmp ⟨2, 1⟩ c2x_snapshot.operations = false ∧
    (applyStep 3 c2x_snapshot c2x_op []).1.deferred_operations.map (fun d => d.parent) =
      [⟨1, 1⟩, ⟨2, 1⟩] := by
  decide

/-- C2 (amended): when `apply_operations` processes an operation not in the
log with at least one parent missing, the operation is not applied and one
`DeferredOperation {parent, operation}` is inserted for *every* parent of the
operation (present or missing), deduplicated by the `(parent, operation id)`
key; and immediately after an operation is applied, every deferred entry
whose parent equals the just-applied id is removed from the deferred sequence
and pushed onto the back of the work queue. -/
theorem apply_operations_defer_flush (fuel : Nat) (s : RepoSnapshot) (op : Operation)
    (q : List Operation) (hsort : dSorted s.deferred_operations) :
    ((alContains OperationId.cmp op.opId s.operations = false) →
     (op.parent.all (fun parent => alContains OperationId.cmp parent s.operations) = false) →
      (applyStep fuel s op q).2 = q ∧
      (applyStep fuel s op q).1.operations = s.operations ∧
      (∀ e, e ∈ (applyStep fuel s op q).1.deferred_operations ↔
        (e.parent ∈ op.parent ∧ e.operation = op) ∨
        (e ∈ s.deferred_operations ∧ ¬(e.parent ∈ op.parent ∧ e.operation.opId = op.opId)))) ∧
    ((alContains OperationId.cmp op.opId s.operations = false) →
     (op.parent.all (fun parent => alContains OperationId.cmp parent s.operations) = true) →
     appliesBranch s op →
      (applyStep fuel s op q).1.deferred_operations =
        s.deferred_operations.filter (fun d => !(OperationId.cmp d.parent op.opId == .eq)) ∧
      (applyStep fuel s op q).2 =
        q ++ (s.deferred_operations.filter
          (fun d => OperationId.cmp d.parent op.opId == .eq)).map (fun d => d.operation)) := by
  constructor
  · intro hnot hmiss
    unfold applyStep
    rw [hnot, hmiss]
    rw [if_neg Bool.false_ne_true, if_neg Bool.false_ne_true]
    refine ⟨rfl, rfl, ?_⟩
    exact (foldl_dIOR_spec op op.parent s.deferred_operations hsort).2
  · intro hnot hall hbr
    unfold applyStep
    rw [hnot, hall]
    rw [if_neg Bool.false_ne_true, if_pos rfl]
    simp only []
    split
    · rename_i hsh
      exfalso
      split at hsh
      · exact Option.noConfusion hsh
      · split at hsh
        · rename_i o branch halg
          simp [appliesBranch, halg] at hbr
        · exact Option.noConfusion hsh
      · split at hsh
        · rename_i o branch halg
          simp [appliesBranch, halg] at hbr
        · exact Option.noConfusion hsh
    · rename_i sh hsh
      have hdef_sh : sh.1.deferred_operations = s.deferred_operations := by
        split at hsh
        · cases hsh
          rfl
        · split at hsh
          · cases hsh
          · cases hsh
            rfl
        · split at hsh
          · cases hsh
          · cases hsh
            rfl
      obtain ⟨hsops, hsmax, hsdef, hsbr, hsrev⟩ := save_operation_fields sh.1 op
      have hs2def : (sh.1.save_operation op).deferred_operations =
          s.deferred_operations := by
        rw [hsdef, hdef_sh]
      have hs2sorted : dSorted (sh.1.save_operation op).deferred_operations := by
        rw [hs2def]
        exact hsort
      obtain ⟨hfl1, hfl2⟩ := flush_deferred_spec (sh.1.save_operation op) op.opId q hs2sorted
      have hframe := loadRevision_frame fuel
        ((sh.1.save_operation op).flush_deferred_operations op.opId q).1 sh.2
      constructor
      · show (loadRevision fuel
            ((sh.1.save_operation op).flush_deferred_operations op.opId q).1
            sh.2).1.deferred_operations = _
        rw [hframe.2.2.2.2.2, hfl1, hs2def]
      · show ((sh.1.save_operation op).flush_deferred_operations op.opId q).2 = _
        rw [hfl2, hs2def]

/-- Witness for C2 at concrete inputs: the deferral part inserts the entry
keyed by the missing parent `(2,1)` of `c2x_op`, and applying `c2w_op`
flushes the entry deferred on it onto the work queue. -/
theorem apply_operations_defer_flush_witness :
    ((⟨⟨2, 1⟩, c2x_op⟩ : DeferredOperation) ∈
      (applyStep 3 c2x_snapshot c2x_op []).1.deferred_operations) ∧
    (applyStep 3 c2w_snapshot c2w_op []).2 =
      [] ++ (c2w_snapshot.deferred_operations.filter
        (fun d => OperationId.cmp d.parent c2w_op.opId == .eq)).map (fun d => d.operation) :=
  ⟨(((apply_operations_defer_flush 3 c2x_snapshot c2x_op []
      (by unfold dSorted; decide)).1
      (by decide) (by decide)).2.2 ⟨⟨2, 1⟩, c2x_op⟩).mpr
      (Or.inl ⟨by decide, rfl⟩),
   ((apply_operations_defer_flush 3 c2w_snapshot c2w_op []
      (by unfold dSorted; decide)).2
      (by decide) (by decide) trivial).2⟩

/-! ### C5: `operations_since` -/

theorem ordBeq {c c' : Ordering} : ((c == c') = true) ↔ c = c' := by
  cases c <;> cases c' <;> decide

theorem ordBne {c c' : Ordering} : ((c != c') = true) ↔ c ≠ c' := by
  cases c <;> cases c' <;> decide

theorem natCmp_self (a : Nat) : natCmp a a = .eq := natCmp_eq.mpr rfl

theorem natCmp_beq_lt (a b : Nat) : (natCmp a b == Ordering.lt) = decide (a < b) := by
  unfold natCmp
  split
  · rename_i h
    rw [show (Ordering.lt == Ordering.lt) = true from rfl]
    simp [h]
  · split
    · rename_i h h2
      rw [show (Ordering.gt == Ordering.lt) = false from rfl]
      symm
      simp only [decide_eq_false_iff_not]
      omega
    · rename_i h h2
      rw [show (Ordering.eq == Ordering.lt) = false from rfl]
      symm
      simp only [decide_eq_false_iff_not]
      omega

theorem natCmp_bne_gt (a b : Nat) : (natCmp a b != Ordering.gt) = decide (a ≤ b) := by
  unfold natCmp
  split
  · rename_i h
    rw [show (Ordering.lt != Ordering.gt) = true from rfl]
    symm
    simp only [decide_eq_true_eq]
    omega
  · split
    · rename_i h h2
      rw [show (Ordering.gt != Ordering.gt) = false from rfl]
      symm
      simp only [decide_eq_false_iff_not]
      omega
    · rename_i h h2
      rw [show (Ordering.eq != Ordering.gt) = true from rfl]
      symm
      simp only [decide_eq_true_eq]
      omega

theorem opIdCmp_same_replica (r a b : Nat) :
    OperationId.cmp ⟨r, a⟩ ⟨r, b⟩ = natCmp a b := by
  unfold OperationId.cmp
  rw [natCmp_self]
  rfl

theorem alGet_cons {α β : Type} (cmp : α → α → Ordering) (k k' : α) (v' : β)
    (l : List (α × β)) :
    alGet cmp k ((k', v') :: l) =
      (match cmp k k' with
       | .lt => none
       | .eq => some v'
       | .gt => alGet cmp k l) := rfl

theorem alGet_of_mem_sorted {α β : Type} {cmp : α → α → Ordering} (L : CmpLaws cmp)
    {k : α} {v : β} : ∀ {l : List (α × β)}, alSorted cmp l → (k, v) ∈ l →
      alGet cmp k l = some v := by
  intro l
  induction l with
  | nil => intro _ h; cases h
  | cons e rest ih =>
    intro hs hmem
    obtain ⟨he, hrest⟩ := List.pairwise_cons.mp hs
    rcases List.mem_cons.mp hmem with heq | hmem2
    · cases heq
      rw [alGet_cons, cmp_self_eq L]
    · have hlt : cmp e.1 k = .lt := he (k, v) hmem2
      rw [alGet_cons, L.lt_asymm _ _ hlt]
      exact ih hrest hmem2

/-- `opsSinceBody` appends a queue-independent block. -/
theorem opsSinceBody_append (operations : List (OperationId × Operation))
    (version : List (Nat × Nat)) (acc : List Operation) (re : Nat × Nat) :
    opsSinceBody operations version acc re =
      acc ++ opsSinceBody operations version [] re := by
  unfold opsSinceBody
  cases alGet natCmp re.1 version <;> simp

theorem opsSince_foldl (operations : List (OperationId × Operation))
    (version : List (Nat × Nat)) :
    ∀ (mx : List (Nat × Nat)) (init : List Operation),
      mx.foldl (opsSinceBody operations version) init =
        init ++ (mx.map (fun re => opsSinceBody operations version [] re)).flatten := by
  intro mx
  induction mx with
  | nil => intro init; simp
  | cons rm rest ih =>
    intro init
    rw [List.foldl_cons, ih, opsSinceBody_append, List.map_cons, List.flatten_cons,
      ← List.append_assoc]

/-- One iteration of `operations_since` returns exactly the log entries of
that replica that are new for `version`. -/
theorem opsSinceBody_eq (version mx : List (Nat × Nat))
    (ops : List (OperationId × Operation)) (r m : Nat)
    (hmx : alSorted natCmp mx) (hmem : ((r, m) : Nat × Nat) ∈ mx)
    (hcover : ∀ e ∈ ops, ∃ m', alGet natCmp e.1.replica_id mx = some m' ∧
      e.1.operation_count ≤ m') :
    opsSinceBody ops version [] (r, m) =
      (ops.filter (fun e => e.1.replica_id == r && newForVersion version e)).map
        (fun e => e.2) := by
  have hget : alGet natCmp r mx = some m := alGet_of_mem_sorted natCmpLaws hmx hmem
  unfold opsSinceBody
  simp only []
  split
  · rename_i v hv
    rw [List.nil_append]
    congr 1
    apply List.filter_congr
    intro e he
    obtain ⟨me, hgete, hle⟩ := hcover e he
    by_cases hrep : e.1.replica_id = r
    · have hme : me = m := by
        rw [hrep, hget] at hgete
        injection hgete with h
        exact h.symm
      have hcnt : e.1.operation_count ≤ m := hme ▸ hle
      have he1 : e.1 = ⟨r, e.1.operation_count⟩ := by
        cases h1 : e.1
        simp_all
      rw [he1, opIdCmp_same_replica, opIdCmp_same_replica, natCmp_beq_lt, natCmp_bne_gt]
      simp [newForVersion, hrep, hv, hcnt]
    · have hfalse : (e.1.replica_id == r) = false := by
        simp [hrep]
      rw [hfalse, Bool.false_and, Bool.eq_false_iff]
      intro hc
      obtain ⟨h1, h2⟩ := Bool.and_eq_true_iff.mp hc
      have h1' := ordBeq.mp h1
      have h2' := ordBne.mp h2
      rcases opIdCmp_lt.mp h1' with hlt | ⟨heq, _⟩
      · exact h2' (opIdCmp_gt.mpr (Or.inl hlt))
      · exact hrep heq.symm
  · rename_i hv
    rw [List.nil_append]
    congr 1
    apply List.filter_congr
    intro e he
    obtain ⟨me, hgete, hle⟩ := hcover e he
    by_cases hrep : e.1.replica_id = r
    · have hme : me = m := by
        rw [hrep, hget] at hgete
        injection hgete with h
        exact h.symm
      have hcnt : e.1.operation_count ≤ m := hme ▸ hle
      have he1 : e.1 = ⟨r, e.1.operation_count⟩ := by
        cases h1 : e.1
        simp_all
      rw [he1, opIdCmp_same_replica, opIdCmp_same_replica, natCmp_bne_gt, natCmp_bne_gt]
      simp [newForVersion, hrep, hv, hcnt]
    · have hfalse : (e.1.replica_id == r) = false := by
        simp [hrep]
      rw [hfalse, Bool.false_and, Bool.eq_false_iff]
      intro hc
      obtain ⟨h1, h2⟩ := Bool.and_eq_true_iff.mp hc
      have h1' := ordBne.mp h1
      have h2' := ordBne.mp h2
      have ha : ¬ e.1.replica_id < r := fun h => h1' (opIdCmp_gt.mpr (Or.inl h))
      have hb : ¬ r < e.1.replica_id := fun h => h2' (opIdCmp_gt.mpr (Or.inl h))
      omega

/-- `alGet` on a cons of `Nat` keys, phrased with ifs for `omega`. -/
theorem alGet_nat_cons (k a b : Nat) (l : List (Nat × Nat)) :
    alGet natCmp k ((a, b) :: l) =
      if k < a then none else if k = a then some b else alGet natCmp k l := by
  rw [alGet_cons]
  rcases hc : natCmp k a with _ | _ | _
  · have h := natCmp_lt.mp hc
    rw [if_pos h]
  · have h := natCmp_eq.mp hc
    subst h
    rw [if_neg (lt_irrefl _), if_pos rfl]
  · have h := natCmp_gt.mp hc
    rw [if_neg (by omega), if_neg (by omega)]

/-- In a log sorted by `OperationId.cmp` whose replicas are all `≥ r`, the
entries of replica `r` form a prefix, so a filter splits into the replica-`r`
block followed by the filter of the remaining entries. -/
theorem filter_replica_split (p : (OperationId × Operation) → Bool) (r : Nat) :
    ∀ ops : List (OperationId × Operation), alSorted OperationId.cmp ops →
      (∀ e ∈ ops, r ≤ e.1.replica_id) →
      ops.filter p =
        ops.filter (fun e => (e.1.replica_id == r) && p e) ++
          (ops.filter (fun e => !(e.1.replica_id == r))).filter p := by
  intro ops
  induction ops with
  | nil => intro _ _; rfl
  | cons e0 rest ih =>
    intro hs hge
    obtain ⟨hhead, hrest⟩ := List.pairwise_cons.mp hs
    have ihr := ih hrest (fun e he => hge e (List.mem_cons_of_mem _ he))
    by_cases hr : e0.1.replica_id = r
    · have hbeq : (e0.1.replica_id == r) = true := by simp [hr]
      cases hp : p e0
      · simp [List.filter_cons, hbeq, hp, ihr]
      · simp [List.filter_cons, hbeq, hp, ihr]
    · have hgt : r < e0.1.replica_id :=
        lt_of_le_of_ne (hge e0 (List.mem_cons_self _ _)) (Ne.symm hr)
      have hall : ∀ e ∈ e0 :: rest, (e.1.replica_id == r) = false := by
        intro e he
        rcases List.mem_cons.mp he with rfl | he2
        · simp [hr]
        · have hlt := hhead e he2
          rcases opIdCmp_lt.mp hlt with h1 | ⟨h1, _⟩ <;>
            · have hne : e.1.replica_id ≠ r := by omega
              simp [hne]
      have h1 : (e0 :: rest).filter (fun e => (e.1.replica_id == r) && p e) = [] := by
        rw [List.filter_eq_nil_iff]
        intro e he
        rw [hall e he, Bool.false_and]
        simp
      have h2 : (e0 :: rest).filter (fun e => !(e.1.replica_id == r)) = e0 :: rest := by
        rw [List.filter_eq_self]
        intro e he
        rw [hall e he]
        rfl
      rw [h1, h2, List.nil_append]

/-- Filtering out replica `r` does not change the block of a replica `k ≠ r`. -/
theorem filter_block_ne (p : (OperationId × Operation) → Bool) (r k : Nat)
    (hk : k ≠ r) (ops : List (OperationId × Operation)) :
    (ops.filter (fun e => !(e.1.replica_id == r))).filter
        (fun e => (e.1.replica_id == k) && p e) =
      ops.filter (fun e => (e.1.replica_id == k) && p e) := by
  rw [List.filter_filter]
  apply List.filter_congr
  intro e _
  by_cases h : e.1.replica_id = k
  · simp [h]
    intro _
    exact hk
  · simp [h]

/-- Concatenating the per-replica blocks over a sorted `max_operation_ids`
yields the filter of the whole sorted log, provided the map covers every
replica occurring in the log. -/
theorem join_blocks (version : List (Nat × Nat)) :
    ∀ (mx : List (Nat × Nat)) (ops : List (OperationId × Operation)),
      alSorted OperationId.cmp ops → alSorted natCmp mx →
      (∀ e ∈ ops, ∃ m, alGet natCmp e.1.replica_id mx = some m ∧
        e.1.operation_count ≤ m) →
      (mx.map (fun rm =>
          (ops.filter (fun e =>
            (e.1.replica_id == rm.1) && newForVersion version e)).map
            (fun e => e.2))).flatten =
        (ops.filter (newForVersion version)).map (fun e => e.2) := by
  intro mx
  induction mx with
  | nil =>
    intro ops _ _ hcover
    cases ops with
    | nil => rfl
    | cons e rest =>
      obtain ⟨m, hm, _⟩ := hcover e (List.mem_cons_self _ _)
      simp [alGet] at hm
  | cons rm rest ih =>
    obtain ⟨r, mv⟩ := rm
    intro ops hops hmx hcover
    obtain ⟨hhead, hrest⟩ := List.pairwise_cons.mp hmx
    have hge : ∀ e ∈ ops, r ≤ e.1.replica_id := by
      intro e he
      obtain ⟨m', hm', _⟩ := hcover e he
      rw [alGet_nat_cons] at hm'
      by_cases h1 : e.1.replica_id < r
      · rw [if_pos h1] at hm'
        cases hm'
      · omega
    have hsort' : alSorted OperationId.cmp
        (ops.filter (fun e => !(e.1.replica_id == r))) :=
      List.Pairwise.sublist (List.filter_sublist _) hops
    have hcover' : ∀ e ∈ ops.filter (fun e => !(e.1.replica_id == r)),
        ∃ m', alGet natCmp e.1.replica_id rest = some m' ∧
          e.1.operation_count ≤ m' := by
      intro e he
      have hmem := List.mem_of_mem_filter he
      have hner : e.1.replica_id ≠ r := by
        have hb := List.of_mem_filter he
        simpa using hb
      obtain ⟨m', hm', hle⟩ := hcover e hmem
      have hge2 := hge e hmem
      rw [alGet_nat_cons, if_neg (by omega), if_neg hner] at hm'
      exact ⟨m', hm', hle⟩
    have hsplit := filter_replica_split (newForVersion version) r ops hops hge
    have hblocks : rest.map (fun rm =>
          (ops.filter (fun e =>
            (e.1.replica_id == rm.1) && newForVersion version e)).map
            (fun e => e.2)) =
        rest.map (fun rm =>
          ((ops.filter (fun e => !(e.1.replica_id == r))).filter (fun e =>
            (e.1.replica_id == rm.1) && newForVersion version e)).map
            (fun e => e.2)) := by
      apply List.map_congr_left
      intro rm2 hrm2
      have hk : r < rm2.1 := natCmp_lt.mp (hhead rm2 hrm2)
      rw [filter_block_ne (newForVersion version) r rm2.1 (by omega) ops]
    rw [List.map_cons, List.flatten_cons, hblocks,
      ih (ops.filter (fun e => !(e.1.replica_id == r))) hsort' hrest hcover',
      ← List.map_append, ← hsplit]

/-- C5: `operations_since(version)` returns exactly the operations in the log
whose ids are new for `version`: their `operation_count` strictly exceeds the
count recorded for their replica in `version`, or their replica does not occur
in `version` at all.  Stated for well-formed snapshots: log and
`max_operation_ids` sorted, and every log entry's replica covered by
`max_operation_ids` with at least its count. -/
theorem operations_since_spec (s : RepoSnapshot) (version : List (Nat × Nat))
    (hops : alSorted OperationId.cmp s.operations)
    (hmax : alSorted natCmp s.max_operation_ids)
    (hcover : ∀ e ∈ s.operations, ∃ m,
      alGet natCmp e.1.replica_id s.max_operation_ids = some m ∧
        e.1.operation_count ≤ m) :
    s.operations_since version =
      (s.operations.filter (newForVersion version)).map (fun e => e.2) := by
  unfold RepoSnapshot.operations_since
  rw [opsSince_foldl, List.nil_append]
  have hmap : s.max_operation_ids.map
        (fun re => opsSinceBody s.operations version [] re) =
      s.max_operation_ids.map (fun rm =>
        (s.operations.filter (fun e =>
          (e.1.replica_id == rm.1) && newForVersion version e)).map
          (fun e => e.2)) := by
    apply List.map_congr_left
    intro rm hrm
    have hmem : ((rm.1, rm.2) : Nat × Nat) ∈ s.max_operation_ids := by
      simpa using hrm
    exact opsSinceBody_eq version s.max_operation_ids s.operations rm.1 rm.2
      hmax hmem hcover
  rw [hmap]
  exact join_blocks version s.max_operation_ids s.operations hops hmax hcover

/-- `operations_since_spec` at the concrete one-operation snapshot
`c4_snapshot`, with the empty version vector. -/
theorem operations_since_spec_witness :
    c4_snapshot.operations_since [] =
      (c4_snapshot.operations.filter (newForVersion [])).map (fun e => e.2) :=
  operations_since_spec c4_snapshot []
    (by unfold alSorted; decide)
    (by unfold alSorted; decide)
    (by
      intro e he
      have hlist : c4_snapshot.operations = [(⟨1, 1⟩, c4_op)] := rfl
      rw [hlist] at he
      have he2 : e = (⟨1, 1⟩, c4_op) := List.mem_singleton.mp he
      subst he2
      exact ⟨1, rfl, Nat.le_refl 1⟩)

/-- The start-anchor computation of `Document::edit` (crdb.rs lines
1254-1269), as it appears in `editStep`, equals `specStartAnchor`. -/
theorem specStartAnchor_eq (c : EditCursor) (docId : OperationId) (k : Nat) :
    specStartAnchor c docId k =
      (if k = c.dim.visible_len then
        match c.pre with
        | none => none
        | some sf => some (Anchor.mk sf.insertion_id sf.subrange_stop .right)
      else
        match c.rest.head?.bind
            (fun item => if item.document_id = docId then some item else none) with
        | none => none
        | some sf =>
          some (Anchor.mk sf.insertion_id
            (sf.subrange_start + (k - c.dim.visible_len)) .right)) := by
  unfold specStartAnchor EditCursor.item
  by_cases hk : k = c.dim.visible_len
  · rw [if_pos hk, if_pos hk]
    cases c.pre <;> rfl
  · rw [if_neg hk, if_neg hk]
    cases c.rest.head?.bind
        (fun item => if item.document_id = docId then some item else none) <;> rfl

/-- The end-anchor computation of `Document::edit` (crdb.rs lines
1347-1362), as it appears in `editStep`, equals `specEndAnchor`. -/
theorem specEndAnchor_eq (c : EditCursor) (docId : OperationId) (k : Nat) :
    specEndAnchor c docId k =
      (if k = c.dim.visible_len then
        match c.pre with
        | none => none
        | some ef => some (Anchor.mk ef.insertion_id ef.subrange_stop .left)
      else
        match c.rest.head?.bind
            (fun item => if item.document_id = docId then some item else none) with
        | none => none
        | some ef =>
          some (Anchor.mk ef.insertion_id
            (ef.subrange_start + (k - c.dim.visible_len)) .left)) := by
  unfold specEndAnchor EditCursor.item
  by_cases hk : k = c.dim.visible_len
  · rw [if_pos hk, if_pos hk]
    cases c.pre <;> rfl
  · rw [if_neg hk, if_neg hk]
    cases c.rest.head?.bind
        (fun item => if item.document_id = docId then some item else none) <;> rfl

theorem editJump_outEdits (docId : OperationId) (st st' : EditLoopState) (k : Nat)
    (h : editJump docId st k = some st') : st'.outEdits = st.outEdits := by
  unfold editJump at h
  simp only [] at h
  by_cases h1 : st.old.stop.visible_len < k
  · rw [if_pos h1] at h
    by_cases h2 : st.fragment_start > st.old.dim.visible_len
    · rw [if_pos h2] at h
      by_cases h3 : st.old.stop.visible_len > st.fragment_start
      · rw [if_pos h3] at h
        rcases hh : st.old.rest.head? with _ | f
        · rw [hh] at h
          exact Option.noConfusion h
        · rw [hh] at h
          have h4 := Option.some.inj h
          subst h4
          rfl
      · rw [if_neg h3] at h
        have h4 := Option.some.inj h
        subst h4
        rfl
    · rw [if_neg h2] at h
      have h4 := Option.some.inj h
      subst h4
      rfl
  · rw [if_neg h1] at h
    have h4 := Option.some.inj h
    subst h4
    rfl

theorem editPrefixPhase_outEdits (st st' : EditLoopState) (k : Nat)
    (h : editPrefixPhase st k = some st') : st'.outEdits = st.outEdits := by
  unfold editPrefixPhase at h
  split at h
  · split at h
    · exact Option.noConfusion h
    · have h2 := Option.some.inj h
      subst h2
      rfl
  · have h2 := Option.some.inj h
    subst h2
    rfl

theorem editInnerLoop_outEdits (editId : OperationId) (rs : Nat) :
    ∀ (fuel : Nat) (st st' : EditLoopState),
      editInnerLoop editId rs fuel st = some st' → st'.outEdits = st.outEdits := by
  intro fuel
  induction fuel with
  | zero => intro st st' h; exact Option.noConfusion h
  | succ fuel ih =>
    intro st st' h
    unfold editInnerLoop at h
    split at h
    · split at h
      · exact Option.noConfusion h
      · have h2 := ih _ _ h
        rw [h2]
        repeat' split
        all_goals rfl
    · have h2 := Option.some.inj h
      subst h2
      rfl

/-- C7: each `(range, new_text)` pair processed by the edit loop of
`Document::edit` emits exactly one `AnchorRange`: its start anchor is, when
`range.start` equals the cumulative visible offset at the current fragment
boundary, the previous fragment's `(insertion_id, insertion_subrange.end)`
with `Bias::Right`, and otherwise the start fragment's `insertion_id` at
`insertion_subrange.start` plus the offset of `range.start` into that
fragment with `Bias::Right`; the end anchor is computed symmetrically with
`Bias::Left` (against the cursor position reached after the deletion loop).
-/
theorem edit_anchors_spec (editId docId : OperationId) (st : EditLoopState)
    (range : Nat × Nat) (new_text : List Char) (st' : EditLoopState)
    (h : editStep editId docId st range new_text = some st') :
    ∃ stj a_s stp stl a_e,
      editJump docId st range.1 = some stj ∧
      specStartAnchor stj.old docId range.1 = some a_s ∧
      editPrefixPhase stj range.1 = some stp ∧
      editInnerLoop editId range.2 (2 * stp.old.rest.length + 2) stp = some stl ∧
      specEndAnchor stl.old docId range.2 = some a_e ∧
      st'.outEdits = st.outEdits ++
        [(AnchorRange.mk docId a_s.insertion_id a_s.offset_in_insertion a_s.bias
            a_e.insertion_id a_e.offset_in_insertion a_e.bias, new_text)] := by
  unfold editStep at h
  obtain ⟨stj, hj⟩ : ∃ x, editJump docId st range.1 = some x := by
    rcases hE : editJump docId st range.1 with _ | x
    · rw [hE] at h
      exact Option.noConfusion h
    · exact ⟨x, rfl⟩
  rw [hj] at h
  simp only [] at h
  rw [← specStartAnchor_eq stj.old docId range.1] at h
  obtain ⟨a_s, ha⟩ : ∃ a, specStartAnchor stj.old docId range.1 = some a := by
    rcases hE : specStartAnchor stj.old docId range.1 with _ | a
    · rw [hE] at h
      exact Option.noConfusion h
    · exact ⟨a, rfl⟩
  rw [ha] at h
  simp only [] at h
  obtain ⟨stp, hp⟩ : ∃ x, editPrefixPhase stj range.1 = some x := by
    rcases hE : editPrefixPhase stj range.1 with _ | x
    · rw [hE] at h
      exact Option.noConfusion h
    · exact ⟨x, rfl⟩
  rw [hp] at h
  simp only [] at h
  obtain ⟨stl, hl⟩ :
      ∃ x, editInnerLoop editId range.2 (2 * stp.old.rest.length + 2) stp = some x := by
    rcases hE : editInnerLoop editId range.2 (2 * stp.old.rest.length + 2) stp with _ | x
    · rw [hE] at h
      exact Option.noConfusion h
    · exact ⟨x, rfl⟩
  rw [hl] at h
  simp only [] at h
  have e1 := editJump_outEdits docId st stj range.1 hj
  have e2 := editPrefixPhase_outEdits stj stp range.1 hp
  have e3 := editInnerLoop_outEdits editId range.2 (2 * stp.old.rest.length + 2) stp stl hl
  by_cases ht : new_text = []
  · rw [if_neg (not_ne_iff.mpr ht)] at h
    rw [← specEndAnchor_eq stl.old docId range.2] at h
    obtain ⟨a_e, he⟩ : ∃ a, specEndAnchor stl.old docId range.2 = some a := by
      rcases hE : specEndAnchor stl.old docId range.2 with _ | a
      · rw [hE] at h
        exact Option.noConfusion h
      · exact ⟨a, rfl⟩
    rw [he] at h
    have h2 := Option.some.inj h
    refine ⟨stj, a_s, stp, stl, a_e, hj, ha, hp, hl, he, ?_⟩
    rw [← h2]
    show stl.outEdits ++ _ = st.outEdits ++ _
    rw [e3, e2, e1]
  · rw [if_pos ht] at h
    simp only [] at h
    rw [← specEndAnchor_eq stl.old docId range.2] at h
    obtain ⟨a_e, he⟩ : ∃ a, specEndAnchor stl.old docId range.2 = some a := by
      rcases hE : specEndAnchor stl.old docId range.2 with _ | a
      · rw [hE] at h
        exact Option.noConfusion h
      · exact ⟨a, rfl⟩
    rw [he] at h
    have h2 := Option.some.inj h
    refine ⟨stj, a_s, stp, stl, a_e, hj, ha, hp, hl, he, ?_⟩
    rw [← h2]
    show stl.outEdits ++ _ = st.outEdits ++ _
    rw [e3, e2, e1]

/-- `edit_anchors_spec` at a concrete one-fragment document state: replacing
the middle character of "abc". -/
theorem edit_anchors_spec_witness :
    ∃ stj a_s stp stl a_e,
      editJump ⟨1, 2⟩ c7_state 1 = some stj ∧
      specStartAnchor stj.old ⟨1, 2⟩ 1 = some a_s ∧
      editPrefixPhase stj 1 = some stp ∧
      editInnerLoop ⟨1, 3⟩ 2 (2 * stp.old.rest.length + 2) stp = some stl ∧
      specEndAnchor stl.old ⟨1, 2⟩ 2 = some a_e ∧
      c7_result.outEdits = c7_state.outEdits ++
        [(AnchorRange.mk ⟨1, 2⟩ a_s.insertion_id a_s.offset_in_insertion a_s.bias
            a_e.insertion_id a_e.offset_in_insertion a_e.bias, ['X'])] :=
  edit_anchors_spec ⟨1, 3⟩ ⟨1, 2⟩ c7_state (1, 2) ['X'] c7_result rfl

end Crdb
